import Mathlib

/-!
# gamestate: a shallow embedding of `gamestate.go`

The Go package keeps one global `*GameMap` and hands out `*GameState`
pointers.  The embedding makes that state explicit:

* `Value` stands for the dynamic values of Go's `any`;
* a Go map is an association list read and written with Go's key equality;
* `*GameState` is `Ptr` (an optional heap address), `World` is the heap of
  `GameState` cells together with the global `gameMap`;
* a run-time panic of a non-looping operation is `none`;
* the two run loops are step functions on `RunState`, iterated a given
  number of times.
-/

namespace Gamestate

/-! ## Values of type `any` -/

/-- Dynamic values an `any` can hold, one constructor or more for each way a
value can behave as a map key: `nil`, booleans, integers and strings are
hashable and equal to themselves (as are pointers, channels and the structs
and arrays made of such values); `nan` is a `float64` NaN (hashable, but
`NaN == NaN` is false); `slice` is a value of a slice type, which Go refuses
to hash (as it does maps, funcs and what contains them). -/
inductive Value where
  | nil
  | bool (b : Bool)
  | int (n : Int)
  | str (s : String)
  | nan
  | slice (xs : List Int)
  deriving DecidableEq, Repr

/-- Whether the Go runtime can hash the value.  Indexing a `map[any]T` with a
value that is not hashable panics ("hash of unhashable type"). -/
def Value.hashable : Value → Bool
  | .slice _ => false
  | _ => true

/-- Go's `==` between two hashable interface values, as the map uses it to
compare keys.  A NaN is different from every value, itself included. -/
def Value.keyEq (a b : Value) : Bool :=
  a.hashable && decide (a ≠ Value.nan) && decide (a = b)

/-- Values `v` with `v == v`: the ones a map entry can be found under. -/
def Value.isKey (v : Value) : Bool := Value.keyEq v v

/-! ## Go maps -/

/-- The index expression `m[k]` with its presence flag: the value of the
first entry whose key equals `k`. -/
def mapGet {K V : Type} (eq : K → K → Bool) : List (K × V) → K → Option V
  | [], _ => none
  | (k', v) :: rest, k => if eq k' k then some v else mapGet eq rest k

/-- The assignment `m[k] = v`: the entry whose key equals `k` gets the new
value, and a new entry is added when there is none. -/
def mapSet {K V : Type} (eq : K → K → Bool) : List (K × V) → K → V → List (K × V)
  | [], k, v => [(k, v)]
  | (k', v') :: rest, k, v =>
    if eq k' k then (k', v) :: rest else (k', v') :: mapSet eq rest k v

/-- The builtin `delete(m, k)`: every entry whose key equals `k` goes. -/
def mapDelete {K V : Type} (eq : K → K → Bool) (m : List (K × V)) (k : K) : List (K × V) :=
  m.filter (fun e => !eq e.1 k)

/-- Equality of `string` keys. -/
def strEq (a b : String) : Bool := decide (a = b)

/-- Equality of `GameStateID` keys. -/
def idEq (a b : Nat) : Bool := decide (a = b)

/-! ## The data model -/

/-- The type `GameStateID uint32`, as a natural number below `2 ^ 32`. -/
abbrev GameStateID := Nat

/-- Number of values of a `uint32`. -/
def uint32Size : Nat := 2 ^ 32

/-- A `*GameState`: `none` is `nil`, `some a` points at heap cell `a`. -/
abbrev Ptr := Option Nat

/-- A Go `error`: `none` is `nil`, `some msg` an error with that message. -/
abbrev GoError := Option String

/-- The error `nextState` builds with `fmt.Errorf`. -/
def errNoTransition : String := "no relevant state or default state found"

/-- The struct `GameState`.  `A` is the type standing for `func() any`
values; what calling one does is given to the run loops separately.
`transitions` is the map `NewGameState` makes (never the nil map). -/
structure GameState (A : Type) where
  id : GameStateID
  action : A
  transitions : List (Value × Ptr)
  defaultTransition : Ptr
  deriving DecidableEq, Repr

/-- The struct `GameMap`. -/
structure GameMap where
  nextStateID : GameStateID
  states : List (GameStateID × Ptr)
  values : List (String × Value)
  deriving DecidableEq, Repr

/-- Everything an action can read and write: the heap of `GameState` cells
(a `*GameState` is an index in it), the global `gameMap`, and `env`, the
rest of the program's state (variables captured by the action closures). -/
structure World (A E : Type) where
  heap : List (GameState A)
  gameMap : GameMap
  env : E
  deriving DecidableEq, Repr

/-- The package-level initialiser of `gameMap`, with no state allocated. -/
def World.initial {A E : Type} (env : E) : World A E :=
  { heap := [], gameMap := { nextStateID := 0, states := [], values := [] }, env := env }

/-- Reading through a `*GameState`; `none` for `nil`.  Pointers handed out by
`NewGameState` are addresses inside the heap; an address outside it is read
like `nil`. -/
def World.deref {A E : Type} (w : World A E) (p : Ptr) : Option (GameState A) :=
  match p with
  | none => none
  | some a => w.heap[a]?

/-- Writing through a non-nil `*GameState`. -/
def World.store {A E : Type} (w : World A E) (a : Nat) (s : GameState A) : World A E :=
  { w with heap := w.heap.set a s }

/-! ## Building the graph -/

/-- The function `NewGameState`: returns the new pointer and the world after
the call.  `gameMap.nextStateID++` is a `uint32` increment. -/
def NewGameState {A E : Type} (action : A) (w : World A E) : Ptr × World A E :=
  let newState : GameState A :=
    { id := w.gameMap.nextStateID, action := action, transitions := [],
      defaultTransition := none }
  let addr := w.heap.length
  (some addr,
   { w with
     heap := w.heap ++ [newState],
     gameMap :=
      { w.gameMap with
        states := mapSet idEq w.gameMap.states w.gameMap.nextStateID (some addr),
        nextStateID := (w.gameMap.nextStateID + 1) % uint32Size } })

/-- Body of the method `Transition`, on the struct the receiver points at. -/
def GameState.Transition {A : Type} (gameState : GameState A) (toState : Ptr) : GameState A :=
  { gameState with defaultTransition := toState }

/-- Body of the method `TransitionOn`, on the struct the receiver points at;
`none` when the map assignment panics on a key that cannot be hashed. -/
def GameState.TransitionOn {A : Type} (gameState : GameState A) (toState : Ptr) (onVal : Value) :
    Option (GameState A) :=
  if onVal.hashable then
    some { gameState with transitions := mapSet Value.keyEq gameState.transitions onVal toState }
  else none

/-- Body of the method `nextState`, on the struct the receiver points at:
the returned pair `(*GameState, error)`, or `none` when the map lookup panics
on a value that cannot be hashed. -/
def GameState.nextState {A : Type} (gameState : GameState A) (onVal : Value) :
    Option (Ptr × GoError) :=
  if onVal.hashable then
    match mapGet Value.keyEq gameState.transitions onVal with
    | some nextState => some (nextState, none)
    | none =>
      if gameState.defaultTransition ≠ none then some (gameState.defaultTransition, none)
      else some (none, some errNoTransition)
  else none

/-- The call `gameState.Transition(toState)` through a pointer; `none` is the
nil-dereference panic. -/
def Transition {A E : Type} (gameState toState : Ptr) (w : World A E) : Option (World A E) :=
  match gameState, w.deref gameState with
  | some a, some s => some (w.store a (s.Transition toState))
  | _, _ => none

/-- The call `gameState.TransitionOn(toState, on)` through a pointer (the
parameter `on` is written `onVal` throughout). -/
def TransitionOn {A E : Type} (gameState toState : Ptr) (onVal : Value) (w : World A E) :
    Option (World A E) :=
  match gameState, w.deref gameState with
  | some a, some s => (s.TransitionOn toState onVal).map (w.store a)
  | _, _ => none

/-- The call `gameState.nextState(on)` through a pointer. -/
def nextState {A E : Type} (w : World A E) (gameState : Ptr) (onVal : Value) :
    Option (Ptr × GoError) :=
  (w.deref gameState).bind (fun s => s.nextState onVal)

/-- Successive `NewGameState` calls, one per action of the list: the pointers
returned, in order of creation, and the world after the last call. -/
def createStates {A E : Type} : List A → World A E → List Ptr × World A E
  | [], w => ([], w)
  | a :: rest, w =>
    let r := NewGameState a w
    let rs := createStates rest r.2
    (r.1 :: rs.1, rs.2)

/-- The `id` fields of the states made by `createStates`, read through the
returned pointers after the last call, in order of creation. -/
def createdIDs {A E : Type} (acts : List A) (w : World A E) : List (Option GameStateID) :=
  let r := createStates acts w
  r.1.map (fun p => (r.2.deref p).map (fun s => s.id))

/-- The heap cells `createStates` allocates when the counter stands at `c`. -/
def newCells {A : Type} : List A → GameStateID → List (GameState A)
  | [], _ => []
  | a :: rest, c =>
    { id := c, action := a, transitions := [], defaultTransition := none } ::
      newCells rest ((c + 1) % uint32Size)

/-! ## The value store -/

/-- The function `GetGameValue`: the value (the zero `any` when absent) and
the presence flag. -/
def GetGameValue {A E : Type} (key : String) (w : World A E) : Value × Bool :=
  match mapGet strEq w.gameMap.values key with
  | some value => (value, true)
  | none => (Value.nil, false)

/-- The function `SetGameValue`. -/
def SetGameValue {A E : Type} (key : String) (value : Value) (w : World A E) : World A E :=
  { w with gameMap := { w.gameMap with values := mapSet strEq w.gameMap.values key value } }

/-- The function `DeleteGameValue`. -/
def DeleteGameValue {A E : Type} (key : String) (w : World A E) : World A E :=
  { w with gameMap := { w.gameMap with values := mapDelete strEq w.gameMap.values key } }

/-! ## The run loops -/

/-- Meaning of calling a `func() any`: the returned value and the world after
the call, or `none` when the call panics (a nil func, for one). -/
abbrev Exec (A E : Type) := A → World A E → Option (Value × World A E)

/-- The call `currentState.action()`; `none` is a panic (nil receiver or a
panicking action). -/
def callAction {A E : Type} (exec : Exec A E) (w : World A E) (currentState : Ptr) :
    Option (Value × World A E) :=
  (w.deref currentState).bind (fun s => exec s.action w)

/-- Control state of a run loop.  `Running` is the head of the loop with the
value of `currentState`; `Returned` holds what the function returned;
`Panicked` is a run-time panic.  `executed` is a ghost log: the states whose
action has been called so far, oldest first. -/
inductive RunState (A E R : Type) where
  | Running (currentState : Ptr) (w : World A E) (executed : List Ptr)
  | Returned (result : R) (w : World A E) (executed : List Ptr)
  | Panicked
  deriving DecidableEq, Repr

/-- One pass through the loop of `RunGame` (the test `currentState != endState`
and what follows it); a finished run stays as it is. -/
def RunGame.step {A E : Type} (exec : Exec A E) (endState : Ptr) :
    RunState A E (Value × GoError) → RunState A E (Value × GoError)
  | .Running currentState w executed =>
    if currentState ≠ endState then
      match callAction exec w currentState with
      | none => .Panicked
      | some (ret, w1) =>
        match nextState w1 currentState ret with
        | none => .Panicked
        | some (nextSt, err) =>
          if err ≠ none then .Returned (Value.nil, err) w1 (executed ++ [currentState])
          else .Running nextSt w1 (executed ++ [currentState])
    else
      match callAction exec w currentState with
      | none => .Panicked
      | some (ret, w1) => .Returned (ret, none) w1 (executed ++ [currentState])
  | s => s

/-- The function `RunGame` after `n` passes through its loop. -/
def RunGame {A E : Type} (exec : Exec A E) (startState endState : Ptr) (w : World A E)
    (n : Nat) : RunState A E (Value × GoError) :=
  (RunGame.step exec endState)^[n] (.Running startState w [])

/-- One pass through the loop of `RunGameToEnd`. -/
def RunGameToEnd.step {A E : Type} (exec : Exec A E) :
    RunState A E Value → RunState A E Value
  | .Running currentState w executed =>
    match callAction exec w currentState with
    | none => .Panicked
    | some (ret, w1) =>
      match nextState w1 currentState ret with
      | none => .Panicked
      | some (nextSt, err) =>
        if err ≠ none then .Returned ret w1 (executed ++ [currentState])
        else .Running nextSt w1 (executed ++ [currentState])
  | s => s

/-- The function `RunGameToEnd` after `n` passes through its loop. -/
def RunGameToEnd {A E : Type} (exec : Exec A E) (startState : Ptr) (w : World A E)
    (n : Nat) : RunState A E Value :=
  (RunGameToEnd.step exec)^[n] (.Running startState w [])

/-! ## The resolution path (specification side) -/

/-- The step rule shared by the two loops: call the action of `currentState`,
then resolve with the value it produced.  Gives that value, what `nextState`
returned, and the world after the action. -/
def stepRule {A E : Type} (exec : Exec A E) (w : World A E) (currentState : Ptr) :
    Option (Value × (Ptr × GoError) × World A E) :=
  match callAction exec w currentState with
  | none => none
  | some (ret, w1) => (nextState w1 currentState ret).map (fun r => (ret, r, w1))

/-- The configuration after `k` successful resolutions from `(p, w)`: the
`k`-th state of the chain and the world in which its action will run. -/
def pathFrom {A E : Type} (exec : Exec A E) : Nat → Ptr → World A E → Option (Ptr × World A E)
  | 0, p, w => some (p, w)
  | k + 1, p, w =>
    match stepRule exec w p with
    | some (_, (next, none), w1) => pathFrom exec k next w1
    | _ => none

/-- The first `k` states of the chain from `(p, w)`, in order. -/
def pathStates {A E : Type} (exec : Exec A E) : Nat → Ptr → World A E → List Ptr
  | 0, _, _ => []
  | k + 1, p, w =>
    p :: (match stepRule exec w p with
          | some (_, (next, none), w1) => pathStates exec k next w1
          | _ => [])

/-! ## Concrete graphs used in examples -/

/-- Actions of the tests: `func() any { return n }`, that touch nothing. -/
def constExec {E : Type} : Exec Int E := fun n w => some (Value.int n, w)

/-- The graph of `TestTransitions`: five states returning 1..5 (at addresses
0..4), chained by default transitions `1 → 3 → 4 → 2 → 5`. -/
def testWorld : World Int Unit :=
  { heap :=
      [ { id := 0, action := 1, transitions := [], defaultTransition := some 2 },
        { id := 1, action := 2, transitions := [], defaultTransition := some 4 },
        { id := 2, action := 3, transitions := [], defaultTransition := some 3 },
        { id := 3, action := 4, transitions := [], defaultTransition := some 1 },
        { id := 4, action := 5, transitions := [], defaultTransition := none } ],
    gameMap :=
      { nextStateID := 5,
        states := [(0, some 0), (1, some 1), (2, some 2), (3, some 3), (4, some 4)],
        values := [] },
    env := () }

/-- The calls of `TestTransitions` that build its graph. -/
def testGraph : Option (World Int Unit) :=
  let r1 := NewGameState 1 (World.initial ())
  let r2 := NewGameState 2 r1.2
  let r3 := NewGameState 3 r2.2
  let r4 := NewGameState 4 r3.2
  let r5 := NewGameState 5 r4.2
  (((Transition r1.1 r3.1 r5.2).bind (Transition r3.1 r4.1)).bind
    (Transition r4.1 r2.1)).bind (Transition r2.1 r5.1)

/-- A state with an empty table whose default transition is the state at
address 1. -/
def defaultOnly : GameState Unit :=
  { id := 0, action := (), transitions := [], defaultTransition := some 1 }

/-- A state as `NewGameState` leaves it: empty table, no default. -/
def freshState : GameState Unit :=
  { id := 0, action := (), transitions := [], defaultTransition := none }

/-- A state whose table sends `1` to the state at address 3 and whose default
transition is the state at address 2. -/
def branchState : GameState Unit :=
  { id := 0, action := (), transitions := [(Value.int 1, some 3)],
    defaultTransition := some 2 }

/-! ## Chains of states -/

/-- Actions that return a fixed value and touch nothing, as
`func() any { return v }` with `v = val a`. -/
def fixedExec {A E : Type} (val : A → Value) : Exec A E := fun a w => some (val a, w)

/-- One wiring call `wire p q` for every two neighbours `p`, `q` of a list of
states, from the front; `none` as soon as a call panics. -/
def wireWith {A E : Type} (wire : Ptr → Ptr → World A E → Option (World A E)) :
    List Ptr → World A E → Option (World A E)
  | [], w => some w
  | p :: rest, w =>
    match rest with
    | [] => some w
    | q :: _ => (wire p q w).bind (wireWith wire rest)

/-- The calls `s_i.Transition(s_{i+1})` along a chain of states. -/
def wireDefaults {A E : Type} (chain : List Ptr) (w : World A E) : Option (World A E) :=
  wireWith (fun p q u => Transition p q u) chain w

/-- The calls `s_i.TransitionOn(s_{i+1}, v_i)` along a chain of states, `v_i`
being the value the action of `s_i` returns. -/
def wireConditional {A E : Type} (val : A → Value) (chain : List Ptr) (w : World A E) :
    Option (World A E) :=
  wireWith (fun p q u => (u.deref p).bind (fun s => TransitionOn p q (val s.action) u)) chain w

/-- Whether the cell at address `a` is a state with an empty table and no
default transition. -/
def isFresh {A E : Type} (w : World A E) (a : Nat) : Bool :=
  match w.heap[a]? with
  | some s => s.transitions.isEmpty && s.defaultTransition.isNone
  | none => false

/-- Whether the cell at address `a` is a state whose action returns a value
that is hashable and equal to itself. -/
def returnsKey {A E : Type} (val : A → Value) (w : World A E) (a : Nat) : Bool :=
  match w.heap[a]? with
  | some s => (val s.action).isKey
  | none => false

/-- The value the action of the state at address `a` returns (`nil` when
there is no such state). -/
def returnedBy {A E : Type} (val : A → Value) (w : World A E) (a : Nat) : Value :=
  match w.heap[a]? with
  | some s => val s.action
  | none => Value.nil

/-- The five states of `TestTransitions` and `TestTransitionsOn` after the
`NewGameState` calls, before any wiring. -/
def fiveStates : World Int Unit :=
  (createStates [1, 2, 3, 4, 5] (World.initial ())).2

/-- Two states, the first returning a NaN, the second returning 5. -/
def nanStates : World Value Unit :=
  (createStates [Value.nan, Value.int 5] (World.initial ())).2

/-- Two states, the first returning `[]int{1}`, the second returning 5. -/
def sliceStates : World Value Unit :=
  (createStates [Value.slice [1], Value.int 5] (World.initial ())).2

/-! ## The accumulation test -/

/-- Go's `+` on two `int` values, taken 64 bits wide: the sum wraps around. -/
def int64Add (a b : Int) : Int := (a + b + 2 ^ 63) % 2 ^ 64 - 2 ^ 63

/-- Actions of `TestGetSetGameValues`, given by the key and the number `n`
they use: store `n` under the key, read `"total"` (the `assert` and the type
assertion panic when it is absent or not an `int`), write back `total + n`,
return `n`. -/
def totalExec {E : Type} : Exec (String × Int) E := fun a w =>
  let w1 := SetGameValue a.1 (Value.int a.2) w
  match GetGameValue "total" w1 with
  | (Value.int total, true) =>
    some (Value.int a.2, SetGameValue "total" (Value.int (int64Add total a.2)) w1)
  | _ => none

/-- The calls of `TestGetSetGameValues` before the run: `"total"` set to 0,
five states adding 1..5, chained by defaults `1 → 3 → 4 → 2 → 5`. -/
def totalGraph : Option (World (String × Int) Unit) :=
  wireDefaults [some 0, some 2, some 3, some 1, some 4]
    (createStates
      [("number1", 1), ("number2", 2), ("number3", 3), ("number4", 4), ("number5", 5)]
      (SetGameValue "total" (Value.int 0) (World.initial ()))).2

/-- The world `totalGraph` builds. -/
def totalWorld : World (String × Int) Unit :=
  { heap :=
      [ { id := 0, action := ("number1", 1), transitions := [], defaultTransition := some 2 },
        { id := 1, action := ("number2", 2), transitions := [], defaultTransition := some 4 },
        { id := 2, action := ("number3", 3), transitions := [], defaultTransition := some 3 },
        { id := 3, action := ("number4", 4), transitions := [], defaultTransition := some 1 },
        { id := 4, action := ("number5", 5), transitions := [], defaultTransition := none } ],
    gameMap :=
      { nextStateID := 5,
        states := [(0, some 0), (1, some 1), (2, some 2), (3, some 3), (4, some 4)],
        values := [("total", Value.int 0)] },
    env := () }

/-- Scenario C of the specification: `"total"` set to 0 and four states adding
1, 2, 3, 4, chained by defaults in the order of creation. -/
def fourGraph : Option (World (String × Int) Unit) :=
  wireDefaults [some 0, some 1, some 2, some 3]
    (createStates [("number1", 1), ("number2", 2), ("number3", 3), ("number4", 4)]
      (SetGameValue "total" (Value.int 0) (World.initial ()))).2

/-- The amounts added along the chain of `totalWorld`, by position. -/
def testAmounts : Nat → Int
  | 0 => 1
  | 1 => 3
  | 2 => 4
  | 3 => 2
  | _ => 5

/-! ## Reading a run state -/

/-- The world of a run state (none after a panic). -/
def RunState.world? {A E R : Type} : RunState A E R → Option (World A E)
  | .Running _ w _ => some w
  | .Returned _ w _ => some w
  | .Panicked => none

/-- What the function returned, once it has. -/
def RunState.result? {A E R : Type} : RunState A E R → Option R
  | .Returned r _ _ => some r
  | _ => none

/-- The states whose action has been called so far. -/
def RunState.executed {A E R : Type} : RunState A E R → List Ptr
  | .Running _ _ ex => ex
  | .Returned _ _ ex => ex
  | .Panicked => []

/-- The state the loop is about to run, while it is running. -/
def RunState.current? {A E R : Type} : RunState A E R → Option Ptr
  | .Running p _ _ => some p
  | _ => none

/-- Whether the action of `currentState`, called in the world `w`, returns,
finds an integer `t` under `"total"` before the call and leaves `t + a` there
after it. -/
def addsToTotal {A E : Type} (exec : Exec A E) (a : Int) (w : World A E)
    (currentState : Ptr) : Bool :=
  match callAction exec w currentState, GetGameValue "total" w with
  | some (_, w1), (Value.int t, true) =>
    decide (GetGameValue "total" w1 = (Value.int (t + a), true))
  | _, _ => false

/-! ## Graphs that differ at the end state only -/

/-- Two worlds that differ at most in the transition table and the default
transition of the state `endState` points at: same `gameMap`, same `env`,
the same cell behind every other pointer, and behind every pointer a state
of the same identity and action (or none in both). -/
def agreeOffEnd {A E : Type} (endState : Ptr) (w w' : World A E) : Prop :=
  w.gameMap = w'.gameMap ∧ w.env = w'.env ∧
  ∀ p : Ptr, (p ≠ endState → w.deref p = w'.deref p) ∧
    (w.deref p).map (fun s => (s.id, s.action)) = (w'.deref p).map (fun s => (s.id, s.action))

/-- Actions that cannot tell such worlds apart: called in two of them, an
action panics in both, or returns the same value in both and leaves two
worlds that again differ at most there. -/
def respectsEnd {A E : Type} (exec : Exec A E) (endState : Ptr) : Prop :=
  ∀ (a : A) (w w' : World A E), agreeOffEnd endState w w' →
    (exec a w = none ∧ exec a w' = none) ∨
    ∃ v u u', exec a w = some (v, u) ∧ exec a w' = some (v, u') ∧ agreeOffEnd endState u u'

/-- Two run states with the same control state, the same result and the same
executed actions, in worlds that differ at most at the end state. -/
def RunState.agree {A E R : Type} (endState : Ptr) :
    RunState A E R → RunState A E R → Prop
  | .Running p w ex, .Running p' w' ex' => p = p' ∧ ex = ex' ∧ agreeOffEnd endState w w'
  | .Returned r w ex, .Returned r' w' ex' => r = r' ∧ ex = ex' ∧ agreeOffEnd endState w w'
  | .Panicked, .Panicked => True
  | _, _ => False

/-- Actions of the probing example: `ret n` is `func() any { return n }`, and
`probe p` is `func() any { return RunGameToEnd(p) }` for the state `p`. -/
inductive ProbeAct where
  | ret (n : Int)
  | probe (p : Nat)
  deriving DecidableEq, Repr

/-- The actions run inside the nested `RunGameToEnd` of the example: only
`ret` states occur there. -/
def probeInner : Exec ProbeAct Unit := fun a w =>
  match a with
  | .ret n => some (Value.int n, w)
  | .probe _ => none

/-- Meaning of the actions of the probing example.  The nested run of
`probe p` returns within three passes on the graphs below. -/
def probeExec : Exec ProbeAct Unit := fun a w =>
  match a with
  | .ret n => some (Value.int n, w)
  | .probe p =>
    match RunGameToEnd probeInner (some p) w 3 with
    | .Returned v w1 _ => some (v, w1)
    | _ => none

/-- Three states: state 0 runs `RunGameToEnd` on state 1 and goes to state 2
when that returns 9, to state 1 otherwise; state 1 returns 7, state 2
returns 9; states 1 and 2 have no transitions. -/
def probeGraph : Option (World ProbeAct Unit) :=
  ((TransitionOn (some 0) (some 2) (Value.int 9)
    (createStates [ProbeAct.probe 1, ProbeAct.ret 7, ProbeAct.ret 9] (World.initial ())).2).bind
    (Transition (some 0) (some 1)))

/-- The graph of `TestTransitions` with a default transition added on its
end state, back to state 1. -/
def testWorldLooped : World Int Unit :=
  testWorld.store 4 { id := 4, action := 5, transitions := [(Value.int 5, some 2)],
                      defaultTransition := some 0 }

/-! ## A graph that never stops -/

/-- One state returning 1 whose default transition is itself. -/
def loopWorld : World Int Unit :=
  { heap := [ { id := 0, action := 1, transitions := [], defaultTransition := some 0 } ],
    gameMap := { nextStateID := 1, states := [(0, some 0)], values := [] },
    env := () }

/-- The calls that build `loopWorld`. -/
def loopGraph : Option (World Int Unit) :=
  let r := NewGameState 1 (World.initial ())
  Transition r.1 r.1 r.2

/-! ## Nil destinations -/

/-- Every destination stored in the transition table of a state of the heap
is a non-nil pointer: what the graph looks like when every destination
passed to `TransitionOn` is a non-nil state. -/
def tablesNonNil {A E : Type} (w : World A E) : Prop :=
  ∀ s ∈ w.heap, ∀ e ∈ s.transitions, e.2 ≠ none

/-- Two states returning 1 and 2, after `TransitionOn(nil, 1)` on the first:
its table holds a nil destination under the key `1`. -/
def nilTableWorld : World Int Unit :=
  { heap := [ { id := 0, action := 1, transitions := [(Value.int 1, none)],
                defaultTransition := none },
              { id := 1, action := 2, transitions := [], defaultTransition := none } ],
    gameMap := { nextStateID := 2, states := [(0, some 0), (1, some 1)], values := [] },
    env := () }

/-- The calls that build `nilTableWorld`. -/
def nilTableGraph : Option (World Int Unit) :=
  TransitionOn (some 0) none (Value.int 1) (createStates [1, 2] (World.initial ())).2

/-- The graph of `TestTransitionsOn`: the five states returning 1..5, chained
`1 → 3 → 4 → 2 → 5` by transitions on the value each state returns. -/
def testWorldOn : World Int Unit :=
  { heap :=
      [ { id := 0, action := 1, transitions := [(Value.int 1, some 2)],
          defaultTransition := none },
        { id := 1, action := 2, transitions := [(Value.int 2, some 4)],
          defaultTransition := none },
        { id := 2, action := 3, transitions := [(Value.int 3, some 3)],
          defaultTransition := none },
        { id := 3, action := 4, transitions := [(Value.int 4, some 1)],
          defaultTransition := none },
        { id := 4, action := 5, transitions := [], defaultTransition := none } ],
    gameMap :=
      { nextStateID := 5,
        states := [(0, some 0), (1, some 1), (2, some 2), (3, some 3), (4, some 4)],
        values := [] },
    env := () }

end Gamestate

/-! # Theorems -/

namespace Gamestate

/-! ## The example graph -/

theorem testGraph_eq : testGraph = some testWorld := by decide

/-! ## Keys and maps -/

theorem keyEq_iff (a b : Value) :
    Value.keyEq a b = true ↔ a.hashable = true ∧ a ≠ Value.nan ∧ a = b := by
  simp [Value.keyEq, and_assoc]

theorem isKey_iff (v : Value) : v.isKey = true ↔ v.hashable = true ∧ v ≠ Value.nan := by
  simp [Value.isKey, keyEq_iff]

theorem mapGet_keyEq_some {V : Type} (m : List (Value × V)) (k : Value) (d : V)
    (h : mapGet Value.keyEq m k = some d) : k.isKey = true := by
  induction m with
  | nil => simp [mapGet] at h
  | cons e rest ih =>
    obtain ⟨k', v'⟩ := e
    by_cases hk : Value.keyEq k' k = true
    · obtain ⟨h1, h2, h3⟩ := (keyEq_iff k' k).1 hk
      subst h3
      exact (isKey_iff k').2 ⟨h1, h2⟩
    · simp only [mapGet, hk] at h
      exact ih h

theorem mapGet_mapSet_self {K V : Type} (eq : K → K → Bool) (m : List (K × V)) (k : K) (v : V)
    (hk : eq k k = true) : mapGet eq (mapSet eq m k v) k = some v := by
  induction m with
  | nil => simp [mapSet, mapGet, hk]
  | cons e rest ih =>
    obtain ⟨k', v'⟩ := e
    by_cases h : eq k' k = true
    · simp [mapSet, mapGet, h]
    · simp [mapSet, mapGet, h, ih]

theorem mapGet_mapDelete_self {K V : Type} (eq : K → K → Bool) (m : List (K × V)) (k : K) :
    mapGet eq (mapDelete eq m k) k = none := by
  induction m with
  | nil => simp [mapDelete, mapGet]
  | cons e rest ih =>
    obtain ⟨k', v'⟩ := e
    by_cases h : eq k' k = true
    · simpa [mapDelete, List.filter_cons, h] using ih
    · simpa [mapDelete, List.filter_cons, h, mapGet] using ih

theorem mapDelete_of_absent {K V : Type} (eq : K → K → Bool) (m : List (K × V)) (k : K)
    (h : mapGet eq m k = none) : mapDelete eq m k = m := by
  induction m with
  | nil => simp [mapDelete]
  | cons e rest ih =>
    obtain ⟨k', v'⟩ := e
    by_cases hk : eq k' k = true
    · simp [mapGet, hk] at h
    · simp only [mapGet, hk] at h
      have := ih h
      simp only [mapDelete] at this ⊢
      simp [List.filter_cons, hk, this]

/-! ## Transition resolution -/

theorem nextState_of_hashable {A : Type} (s : GameState A) (v : Value)
    (hv : v.hashable = true) :
    s.nextState v =
      match mapGet Value.keyEq s.transitions v with
      | some d => some (d, none)
      | none =>
        if s.defaultTransition ≠ none then some (s.defaultTransition, none)
        else some (none, some errNoTransition) := by
  simp [GameState.nextState, hv]

/-- C1: when the transition table of `s` maps `v` to `d`, `nextState(s, v)`
returns `d` with no error, whatever the default transition of `s` is (any
pointer `t`, nil included, written by `Transition` afterwards), and calling
`Transition` before `TransitionOn` instead of after it gives the same state. -/
theorem nextState_table_before_default {A : Type} (s : GameState A) (v : Value) (d : Ptr)
    (h : mapGet Value.keyEq s.transitions v = some d) :
    s.nextState v = some (d, none) ∧
    (∀ t : Ptr, (s.Transition t).nextState v = some (d, none)) ∧
    (∀ (s0 : GameState A) (t : Ptr), s0.TransitionOn d v = some s →
      (s0.Transition t).TransitionOn d v = some (s.Transition t)) := by
  have hv : v.hashable = true := ((isKey_iff v).1 (mapGet_keyEq_some _ _ _ h)).1
  refine ⟨?_, ?_, ?_⟩
  · rw [nextState_of_hashable s v hv, h]
  · intro t
    rw [nextState_of_hashable _ v hv]
    simp [GameState.Transition, h]
  · intro s0 t h0
    simp only [GameState.TransitionOn, hv, if_true, Option.some.injEq] at h0 ⊢
    subst h0
    rfl

/-- C1 on `branchState`, whose table sends `1` to address 3 while its default is address 2. -/
theorem nextState_table_before_default_witness :
    mapGet Value.keyEq branchState.transitions (Value.int 1) = some (some 3) ∧
    branchState.nextState (Value.int 1) = some (some 3, none) :=
  ⟨by decide, (nextState_table_before_default branchState (Value.int 1) (some 3) (by decide)).1⟩

/-- C2 (as stated, refuted): the value `[]int{1}` is not a key of the table of
`defaultOnly`, which has a default transition, and `nextState` panics on it
instead of returning the default. -/
theorem nextState_default_unhashable :
    mapGet Value.keyEq defaultOnly.transitions (Value.slice [1]) = none ∧
    defaultOnly.defaultTransition = some 1 ∧
    defaultOnly.nextState (Value.slice [1]) = none ∧
    defaultOnly.nextState (Value.slice [1]) ≠ some (some 1, none) := by
  decide

/-- C2 (amended): for a hashable value `v` that is not a key of the table of
`s`, when `s` has the default transition `d` (a non-nil pointer),
`nextState(s, v)` returns `d` with no error. -/
theorem nextState_default {A : Type} (s : GameState A) (v : Value) (d : Nat)
    (hv : v.hashable = true)
    (hnot : mapGet Value.keyEq s.transitions v = none)
    (hd : s.defaultTransition = some d) :
    s.nextState v = some (some d, none) := by
  rw [nextState_of_hashable s v hv, hnot]
  simp [hd]

/-- C2 (amended) on `branchState` and the value `7`, which is not in its table. -/
theorem nextState_default_witness :
    (Value.int 7).hashable = true ∧
    mapGet Value.keyEq branchState.transitions (Value.int 7) = none ∧
    branchState.defaultTransition = some 2 ∧
    branchState.nextState (Value.int 7) = some (some 2, none) :=
  ⟨by decide, by decide, by decide,
   nextState_default branchState (Value.int 7) 2 (by decide) (by decide) (by decide)⟩

/-- C3 (as stated, refuted): `[]int{1}` is not a key of the table of
`freshState` and `freshState` has no default transition, yet `nextState`
returns no error: it panics and returns nothing. -/
theorem nextState_error_unhashable :
    mapGet Value.keyEq freshState.transitions (Value.slice [1]) = none ∧
    freshState.defaultTransition = none ∧
    freshState.nextState (Value.slice [1]) = none ∧
    ¬ ∃ p e, freshState.nextState (Value.slice [1]) = some (p, some e) := by
  refine ⟨by decide, by decide, by decide, ?_⟩
  rintro ⟨p, e, h⟩
  have h0 : freshState.nextState (Value.slice [1]) = none := by decide
  rw [h0] at h
  exact Option.noConfusion h

/-- C3 (amended): for a hashable value `v`, `nextState(s, v)` returns; it
returns an error exactly when `v` is not a key of the table of `s` and `s`
has no default transition; the destination returned with an error is nil;
in every other case the error is nil. -/
theorem nextState_error_iff {A : Type} (s : GameState A) (v : Value)
    (hv : v.hashable = true) :
    (∃ r, s.nextState v = some r) ∧
    ((∃ p e, s.nextState v = some (p, some e)) ↔
      (mapGet Value.keyEq s.transitions v = none ∧ s.defaultTransition = none)) ∧
    (∀ p e, s.nextState v = some (p, some e) → p = none ∧ e = errNoTransition) ∧
    (¬ (mapGet Value.keyEq s.transitions v = none ∧ s.defaultTransition = none) →
      ∃ p, s.nextState v = some (p, none)) := by
  rw [nextState_of_hashable s v hv]
  cases hg : mapGet Value.keyEq s.transitions v with
  | some d => simp
  | none =>
    cases hd : s.defaultTransition with
    | none => simp
    | some a => simp

/-- C3 (amended) on `freshState` and the value `7`. -/
theorem nextState_error_iff_witness :
    (Value.int 7).hashable = true ∧
    ((∃ p e, freshState.nextState (Value.int 7) = some (p, some e)) ↔
      (mapGet Value.keyEq freshState.transitions (Value.int 7) = none ∧
        freshState.defaultTransition = none)) :=
  ⟨by decide, (nextState_error_iff freshState (Value.int 7) (by decide)).2.1⟩

/-! ## Overwriting transitions -/

theorem TransitionOn_of_hashable {A : Type} (s : GameState A) (d : Ptr) (k : Value)
    (hk : k.hashable = true) :
    s.TransitionOn d k =
      some { s with transitions := mapSet Value.keyEq s.transitions k d } := by
  simp [GameState.TransitionOn, hk]

/-- C7 (as stated, refuted), on `freshState`: with the key `[]int{1}` the call
`TransitionOn` panics; with a NaN key both calls succeed and `nextState` on
the NaN then returns the error, not the second destination; after
`Transition(d1)` and `Transition(nil)` resolution returns the error; and
after two `Transition` calls `nextState` panics on the value `[]int{1}`,
which is not a key of the table. -/
theorem last_write_counterexamples :
    freshState.TransitionOn (some 1) (Value.slice [1]) = none ∧
    (((freshState.TransitionOn (some 1) Value.nan).bind
        (fun s1 => s1.TransitionOn (some 2) Value.nan)).bind
        (fun s2 => s2.nextState Value.nan) = some (none, some errNoTransition)) ∧
    ((freshState.Transition (some 1)).Transition none).nextState (Value.int 0)
      = some (none, some errNoTransition) ∧
    (mapGet Value.keyEq freshState.transitions (Value.slice [1]) = none ∧
      ((freshState.Transition (some 1)).Transition (some 2)).nextState (Value.slice [1])
        = none) := by
  decide

/-- C7 (amended): for a key `k` that is hashable and equal to itself, after
`s.TransitionOn(d1, k)` and `s.TransitionOn(d2, k)` (both of which return)
`nextState(s, k)` returns `d2` with no error; and after `s.Transition(d1)` and
`s.Transition(d2)` with `d2` not nil, `nextState(s, v)` returns `d2` with no
error for every hashable `v` that is not a key of the table. -/
theorem last_write_wins {A : Type} (s : GameState A) (k v : Value) (d1 d2 d1' : Ptr)
    (d2' : Nat) (hk : k.isKey = true) (hv : v.hashable = true)
    (hnot : mapGet Value.keyEq s.transitions v = none) :
    (∃ s1 s2, s.TransitionOn d1 k = some s1 ∧ s1.TransitionOn d2 k = some s2 ∧
      s2.nextState k = some (d2, none)) ∧
    ((s.Transition d1').Transition (some d2')).nextState v = some (some d2', none) := by
  have hh : k.hashable = true := ((isKey_iff k).1 hk).1
  constructor
  · refine ⟨_, _, TransitionOn_of_hashable s d1 k hh, TransitionOn_of_hashable _ d2 k hh, ?_⟩
    rw [nextState_of_hashable _ k hh]
    simp only
    rw [mapGet_mapSet_self Value.keyEq _ k d2 hk]
  · rw [nextState_of_hashable _ v hv]
    simp [GameState.Transition, hnot]

/-- C7 (amended) on `branchState`: the key `1` written twice, the default written twice. -/
theorem last_write_wins_witness :
    (Value.int 1).isKey = true ∧ (Value.int 7).hashable = true ∧
    mapGet Value.keyEq branchState.transitions (Value.int 7) = none ∧
    ((∃ s1 s2, branchState.TransitionOn (some 4) (Value.int 1) = some s1 ∧
        s1.TransitionOn (some 5) (Value.int 1) = some s2 ∧
        s2.nextState (Value.int 1) = some (some 5, none)) ∧
      ((branchState.Transition (some 4)).Transition (some 5)).nextState (Value.int 7)
        = some (some 5, none)) :=
  ⟨by decide, by decide, by decide,
   last_write_wins branchState (Value.int 1) (Value.int 7) (some 4) (some 5) (some 4) 5
     (by decide) (by decide) (by decide)⟩

/-! ## The value store -/

/-- C8: `SetGameValue(k, v)` followed by `GetGameValue(k)` returns `(v, true)`
in every world, whatever the store held under `k` before. -/
theorem get_after_set {A E : Type} (w : World A E) (k : String) (v : Value) :
    GetGameValue k (SetGameValue k v w) = (v, true) := by
  simp only [GetGameValue, SetGameValue]
  rw [mapGet_mapSet_self strEq _ k v (by simp [strEq])]

/-- C9: `DeleteGameValue(k)` followed by `GetGameValue(k)` returns the zero
value and `false`; when `GetGameValue(k)` already reports `k` absent,
`DeleteGameValue(k)` leaves the world as it is; and deleting twice gives the
same world as deleting once. -/
theorem get_after_delete {A E : Type} (w : World A E) (k : String) :
    GetGameValue k (DeleteGameValue k w) = (Value.nil, false) ∧
    ((GetGameValue k w).2 = false → DeleteGameValue k w = w) ∧
    DeleteGameValue k (DeleteGameValue k w) = DeleteGameValue k w := by
  have hdel : ∀ u : World A E, mapGet strEq u.gameMap.values k = none →
      DeleteGameValue k u = u := by
    intro u hu
    simp only [DeleteGameValue]
    rw [mapDelete_of_absent strEq _ k hu]
  have habs : mapGet strEq (DeleteGameValue k w).gameMap.values k = none := by
    simp only [DeleteGameValue]
    exact mapGet_mapDelete_self strEq _ k
  refine ⟨?_, ?_, hdel _ habs⟩
  · simp only [GetGameValue, habs]
  · intro h
    apply hdel
    simp only [GetGameValue] at h
    cases hg : mapGet strEq w.gameMap.values k with
    | none => rfl
    | some x => simp [hg] at h

/-! ## Identity allocation -/

theorem createStates_heap {A E : Type} (acts : List A) (w : World A E) :
    (createStates acts w).2.heap = w.heap ++ newCells acts w.gameMap.nextStateID ∧
    (createStates acts w).1
      = (List.range acts.length).map (fun k => some (w.heap.length + k)) := by
  induction acts generalizing w with
  | nil => simp [createStates, newCells]
  | cons a rest ih =>
    obtain ⟨h1, h2⟩ := ih (NewGameState a w).2
    simp only [createStates]
    rw [h1, h2]
    constructor
    · simp [NewGameState, newCells]
    · simp only [List.length_cons, List.range_succ_eq_map, List.map_cons, List.map_map]
      simp [NewGameState, Function.comp_def]
      intro k _
      omega

theorem newCells_length {A : Type} (acts : List A) (c : Nat) :
    (newCells acts c).length = acts.length := by
  induction acts generalizing c with
  | nil => rfl
  | cons a rest ih => simp [newCells, ih]

theorem newCells_get {A : Type} (acts : List A) (c k : Nat) (hc : c < uint32Size)
    (hk : k < acts.length) :
    ((newCells acts c)[k]?).map (fun s => s.id) = some ((c + k) % uint32Size) := by
  induction acts generalizing c k with
  | nil => simp at hk
  | cons a rest ih =>
    cases k with
    | zero => simp [newCells, Nat.mod_eq_of_lt hc]
    | succ k =>
      simp only [newCells, List.getElem?_cons_succ]
      rw [ih ((c + 1) % uint32Size) k (Nat.mod_lt _ (by decide)) (by simpa using hk)]
      congr 1
      rw [Nat.mod_add_mod]
      congr 1
      omega

theorem createdIDs_get {A E : Type} (acts : List A) (w : World A E) (k : Nat)
    (hc : w.gameMap.nextStateID < uint32Size) (hk : k < acts.length) :
    (createdIDs acts w)[k]? = some (some ((w.gameMap.nextStateID + k) % uint32Size)) := by
  obtain ⟨h1, h2⟩ := createStates_heap acts w
  have hlen := newCells_length acts w.gameMap.nextStateID
  simp only [createdIDs, List.getElem?_map, h2, List.getElem?_range hk, Option.map_some']
  simp only [World.deref, h1]
  have := newCells_get acts w.gameMap.nextStateID k hc hk
  rw [List.getElem?_append_right (by omega)]
  simpa using this

/-- C10, the code at the failing input: after `2 ^ 32 + 1` calls of
`NewGameState` on the initial graph, the first state created and the last
one both have identity 0, so two states share an identity and the one created
later does not have the greater one: the `uint32` counter has wrapped. -/
theorem ids_wrap_around :
    (createdIDs (List.replicate (uint32Size + 1) ()) (World.initial () : World Unit Unit))[0]?
      = some (some 0) ∧
    (createdIDs (List.replicate (uint32Size + 1) ())
      (World.initial () : World Unit Unit))[uint32Size]? = some (some 0) := by
  constructor
  · rw [createdIDs_get _ _ 0 (by decide) (by rw [List.length_replicate]; omega)]
    rfl
  · rw [createdIDs_get _ _ uint32Size (by decide) (by rw [List.length_replicate]; omega)]
    simp [World.initial]

/-- The first state made on the initial graph has identity 0, however many
states are made after it. -/
theorem first_id_zero {A E : Type} (acts : List A) (env : E) (hlen : 0 < acts.length) :
    (createdIDs acts (World.initial env : World A E))[0]? = some (some 0) := by
  have h0 : (World.initial env : World A E).gameMap.nextStateID = 0 := rfl
  rw [createdIDs_get acts _ 0 (by rw [h0]; decide) hlen, h0]
  rfl

/-- Below the wrap, for at most `2 ^ 32` calls of `NewGameState` on the initial
graph: of two created states the one created later has the strictly greater
identity (so the two identities differ). -/
theorem ids_increasing {A E : Type} (acts : List A) (env : E) (i j : Nat)
    (hlen : acts.length ≤ uint32Size) (hij : i < j) (hj : j < acts.length) :
    ∃ a b, (createdIDs acts (World.initial env : World A E))[i]? = some (some a) ∧
      (createdIDs acts (World.initial env : World A E))[j]? = some (some b) ∧
      a < b ∧ a ≠ b := by
  have h0 : (World.initial env : World A E).gameMap.nextStateID = 0 := rfl
  have hS : 0 < uint32Size := by decide
  refine ⟨i, j, ?_, ?_, hij, Nat.ne_of_lt hij⟩
  · rw [createdIDs_get acts _ i (by rw [h0]; exact hS) (by omega), h0, Nat.zero_add,
      Nat.mod_eq_of_lt (by omega)]
  · rw [createdIDs_get acts _ j (by rw [h0]; exact hS) (by omega), h0, Nat.zero_add,
      Nat.mod_eq_of_lt (by omega)]

/-- Three states made on the initial graph: identities 0, 1, 2. -/
theorem three_ids :
    createdIDs [(), (), ()] (World.initial () : World Unit Unit) = [some 0, some 1, some 2] ∧
    (createdIDs [()] (World.initial () : World Unit Unit))[0]? = some (some 0) ∧
    ∃ a b, (createdIDs [(), (), ()] (World.initial () : World Unit Unit))[0]? = some (some a) ∧
      (createdIDs [(), (), ()] (World.initial () : World Unit Unit))[2]? = some (some b) ∧
      a < b ∧ a ≠ b :=
  ⟨by decide, first_id_zero [()] () (by decide),
   ids_increasing [(), (), ()] () 0 2 (by decide) (by decide) (by decide)⟩

/-! ## The run loops -/

theorem stepRule_eq_some {A E : Type} (exec : Exec A E) (w w1 : World A E) (p : Ptr)
    (v : Value) (r : Ptr × GoError) :
    stepRule exec w p = some (v, r, w1) ↔
      callAction exec w p = some (v, w1) ∧ nextState w1 p v = some r := by
  unfold stepRule
  cases hc : callAction exec w p with
  | none => simp
  | some c =>
    obtain ⟨v0, w0⟩ := c
    simp only [Option.map_eq_some', Option.some.injEq, Prod.mk.injEq]
    constructor
    · rintro ⟨r0, hn, rfl, rfl, rfl⟩
      exact ⟨⟨rfl, rfl⟩, hn⟩
    · rintro ⟨⟨rfl, rfl⟩, hn⟩
      exact ⟨r, hn, rfl, rfl, rfl⟩

theorem pathFrom_succ_of_step {A E : Type} (exec : Exec A E) (w w1 : World A E) (p next : Ptr)
    (v : Value) (k : Nat) (h : stepRule exec w p = some (v, (next, none), w1)) :
    pathFrom exec (k + 1) p w = pathFrom exec k next w1 ∧
    pathStates exec (k + 1) p w = p :: pathStates exec k next w1 := by
  simp [pathFrom, pathStates, h]

theorem pathFrom_succ_some {A E : Type} (exec : Exec A E) (w : World A E) (p : Ptr) (k : Nat)
    (c : Ptr × World A E) (h : pathFrom exec (k + 1) p w = some c) :
    ∃ v next w1, stepRule exec w p = some (v, (next, none), w1) ∧
      pathFrom exec k next w1 = some c := by
  simp only [pathFrom] at h
  split at h
  · rename_i v next w1 hs
    exact ⟨v, next, w1, hs, h⟩
  · exact Option.noConfusion h


theorem RunGame_step_advance {A E : Type} (exec : Exec A E) (endState p next : Ptr)
    (w w1 : World A E) (v : Value) (acc : List Ptr) (hp : p ≠ endState)
    (h : stepRule exec w p = some (v, (next, none), w1)) :
    RunGame.step exec endState (.Running p w acc) = .Running next w1 (acc ++ [p]) := by
  obtain ⟨h1, h2⟩ := (stepRule_eq_some exec w w1 p v _).1 h
  simp [RunGame.step, hp, h1, h2]

theorem RunGame_step_fail {A E : Type} (exec : Exec A E) (endState p nxt : Ptr)
    (w w1 : World A E) (v : Value) (e : String) (acc : List Ptr) (hp : p ≠ endState)
    (h1 : callAction exec w p = some (v, w1)) (h2 : nextState w1 p v = some (nxt, some e)) :
    RunGame.step exec endState (.Running p w acc)
      = .Returned (Value.nil, some e) w1 (acc ++ [p]) := by
  simp [RunGame.step, hp, h1, h2]

theorem RunGame_step_end {A E : Type} (exec : Exec A E) (endState : Ptr)
    (w w1 : World A E) (ret : Value) (acc : List Ptr)
    (h1 : callAction exec w endState = some (ret, w1)) :
    RunGame.step exec endState (.Running endState w acc)
      = .Returned (ret, none) w1 (acc ++ [endState]) := by
  simp [RunGame.step, h1]

theorem RunGame_iterate_returned {A E : Type} (exec : Exec A E) (endState : Ptr)
    (r : Value × GoError) (w : World A E) (ex : List Ptr) (n : Nat) :
    (RunGame.step exec endState)^[n] (.Returned r w ex) = .Returned r w ex :=
  Function.iterate_fixed rfl n

theorem RunGame_iterate_panicked {A E : Type} (exec : Exec A E) (endState : Ptr) (n : Nat) :
    (RunGame.step exec endState)^[n] (.Panicked) = .Panicked :=
  Function.iterate_fixed rfl n

theorem RunGameToEnd_step_advance {A E : Type} (exec : Exec A E) (p next : Ptr)
    (w w1 : World A E) (v : Value) (acc : List Ptr)
    (h : stepRule exec w p = some (v, (next, none), w1)) :
    RunGameToEnd.step exec (.Running p w acc) = .Running next w1 (acc ++ [p]) := by
  obtain ⟨h1, h2⟩ := (stepRule_eq_some exec w w1 p v _).1 h
  simp [RunGameToEnd.step, h1, h2]

theorem RunGameToEnd_step_fail {A E : Type} (exec : Exec A E) (p nxt : Ptr)
    (w w1 : World A E) (v : Value) (e : String) (acc : List Ptr)
    (h1 : callAction exec w p = some (v, w1)) (h2 : nextState w1 p v = some (nxt, some e)) :
    RunGameToEnd.step exec (.Running p w acc) = .Returned v w1 (acc ++ [p]) := by
  simp [RunGameToEnd.step, h1, h2]

theorem RunGameToEnd_iterate_returned {A E : Type} (exec : Exec A E)
    (r : Value) (w : World A E) (ex : List Ptr) (n : Nat) :
    (RunGameToEnd.step exec)^[n] (.Returned r w ex) = .Returned r w ex :=
  Function.iterate_fixed rfl n

/-- Along the chain, before the end state shows up, `RunGame` is at the head
of its loop with the chain's current state, having run the states before. -/
theorem RunGame_along_path {A E : Type} (exec : Exec A E) (endState : Ptr) (k : Nat) :
    ∀ (p : Ptr) (w : World A E) (acc : List Ptr) (pk : Ptr) (wk : World A E),
      pathFrom exec k p w = some (pk, wk) →
      (∀ j, j < k → ∀ q wj, pathFrom exec j p w = some (q, wj) → q ≠ endState) →
      (RunGame.step exec endState)^[k] (.Running p w acc)
        = .Running pk wk (acc ++ pathStates exec k p w) := by
  induction k with
  | zero =>
    intro p w acc pk wk h _
    simp only [pathFrom, Option.some.injEq, Prod.mk.injEq] at h
    obtain ⟨rfl, rfl⟩ := h
    simp [pathStates]
  | succ k ih =>
    intro p w acc pk wk h hfirst
    obtain ⟨v, next, w1, hs, hrest⟩ := pathFrom_succ_some exec w p k _ h
    have hp : p ≠ endState := hfirst 0 (Nat.succ_pos k) p w rfl
    rw [Function.iterate_succ_apply, RunGame_step_advance exec endState p next w w1 v acc hp hs,
      ih next w1 (acc ++ [p]) pk wk hrest, (pathFrom_succ_of_step exec w w1 p next v k hs).2]
    · simp
    · intro j hj q wj hq
      refine hfirst (j + 1) (Nat.succ_lt_succ hj) q wj ?_
      rw [(pathFrom_succ_of_step exec w w1 p next v j hs).1]
      exact hq

theorem RunGameToEnd_along_path {A E : Type} (exec : Exec A E) (k : Nat) :
    ∀ (p : Ptr) (w : World A E) (acc : List Ptr) (pk : Ptr) (wk : World A E),
      pathFrom exec k p w = some (pk, wk) →
      (RunGameToEnd.step exec)^[k] (.Running p w acc)
        = .Running pk wk (acc ++ pathStates exec k p w) := by
  induction k with
  | zero =>
    intro p w acc pk wk h
    simp only [pathFrom, Option.some.injEq, Prod.mk.injEq] at h
    obtain ⟨rfl, rfl⟩ := h
    simp [pathStates]
  | succ k ih =>
    intro p w acc pk wk h
    obtain ⟨v, next, w1, hs, hrest⟩ := pathFrom_succ_some exec w p k _ h
    rw [Function.iterate_succ_apply, RunGameToEnd_step_advance exec p next w w1 v acc hs,
      ih next w1 (acc ++ [p]) pk wk hrest, (pathFrom_succ_of_step exec w w1 p next v k hs).2]
    simp

/-- The list `pathStates` holds the states of the chain, position by position. -/
theorem pathStates_spec {A E : Type} (exec : Exec A E) (k : Nat) :
    ∀ (p : Ptr) (w : World A E) (c : Ptr × World A E),
      pathFrom exec k p w = some c →
      (pathStates exec (k + 1) p w).length = k + 1 ∧
      ∀ j, j ≤ k → (pathStates exec (k + 1) p w)[j]? = (pathFrom exec j p w).map Prod.fst := by
  induction k with
  | zero =>
    intro p w c _
    have h1 : pathStates exec (0 + 1) p w = [p] := by
      simp only [pathStates]
      split <;> rfl
    rw [h1]
    refine ⟨rfl, ?_⟩
    intro j hj
    obtain rfl : j = 0 := by omega
    simp [pathFrom]
  | succ k ih =>
    intro p w c h
    obtain ⟨v, next, w1, hs, hrest⟩ := pathFrom_succ_some exec w p k _ h
    obtain ⟨hl, hg⟩ := ih next w1 c hrest
    rw [(pathFrom_succ_of_step exec w w1 p next v (k + 1) hs).2]
    refine ⟨by simp [hl], ?_⟩
    intro j hj
    cases j with
    | zero => simp [pathFrom]
    | succ j =>
      rw [List.getElem?_cons_succ, hg j (by omega),
        (pathFrom_succ_of_step exec w w1 p next v j hs).1]


theorem pathStates_succ {A E : Type} (exec : Exec A E) (k : Nat) :
    ∀ (p : Ptr) (w : World A E) (pk : Ptr) (wk : World A E),
      pathFrom exec k p w = some (pk, wk) →
      pathStates exec (k + 1) p w = pathStates exec k p w ++ [pk] := by
  induction k with
  | zero =>
    intro p w pk wk h
    simp only [pathFrom, Option.some.injEq, Prod.mk.injEq] at h
    obtain ⟨rfl, rfl⟩ := h
    simp only [pathStates]
    split <;> rfl
  | succ k ih =>
    intro p w pk wk h
    obtain ⟨v, next, w1, hs, hrest⟩ := pathFrom_succ_some exec w p k _ h
    rw [(pathFrom_succ_of_step exec w w1 p next v (k + 1) hs).2,
      (pathFrom_succ_of_step exec w w1 p next v k hs).2, ih next w1 pk wk hrest]
    rfl

theorem mem_pathStates {A E : Type} (exec : Exec A E) (k : Nat) :
    ∀ (p : Ptr) (w : World A E) (c : Ptr × World A E) (q : Ptr),
      pathFrom exec k p w = some c → q ∈ pathStates exec k p w →
      ∃ j wj, j < k ∧ pathFrom exec j p w = some (q, wj) := by
  induction k with
  | zero =>
    intro p w c q _ hq
    simp [pathStates] at hq
  | succ k ih =>
    intro p w c q h hq
    obtain ⟨v, next, w1, hs, hrest⟩ := pathFrom_succ_some exec w p k _ h
    rw [(pathFrom_succ_of_step exec w w1 p next v k hs).2, List.mem_cons] at hq
    rcases hq with rfl | hq
    · exact ⟨0, w, Nat.succ_pos k, rfl⟩
    · obtain ⟨j, wj, hj, hpj⟩ := ih next w1 c q hrest hq
      refine ⟨j + 1, wj, Nat.succ_lt_succ hj, ?_⟩
      rw [(pathFrom_succ_of_step exec w w1 p next v j hs).1]
      exact hpj

/-- A state of the chain whose resolution returns the error, before the end
state is met, makes `RunGame` return `(nil, err)` right after its action. -/
theorem RunGame_fails_at {A E : Type} (exec : Exec A E) (startState endState : Ptr)
    (w : World A E) (k : Nat) (pk nxt : Ptr) (wk w1 : World A E) (v : Value) (e : String)
    (hpath : pathFrom exec k startState w = some (pk, wk))
    (hne : ∀ j, j ≤ k → ∀ q wj, pathFrom exec j startState w = some (q, wj) → q ≠ endState)
    (hact : callAction exec wk pk = some (v, w1))
    (hfail : nextState w1 pk v = some (nxt, some e)) (m : Nat) (hm : k + 1 ≤ m) :
    RunGame exec startState endState w m
      = .Returned (Value.nil, some e) w1 (pathStates exec (k + 1) startState w) := by
  obtain ⟨a, rfl⟩ : ∃ a, m = a + (k + 1) := ⟨m - (k + 1), by omega⟩
  have hk := RunGame_along_path exec endState k startState w [] pk wk hpath
    (fun j hj => hne j (Nat.le_of_lt hj))
  unfold RunGame
  rw [Function.iterate_add_apply, Function.iterate_succ_apply', hk,
    RunGame_step_fail exec endState pk nxt wk w1 v e _ (hne k (Nat.le_refl k) pk wk hpath)
      hact hfail,
    RunGame_iterate_returned, pathStates_succ exec k startState w pk wk hpath]
  rfl

/-- Reaching the end state makes `RunGame` return its action's result. -/
theorem RunGame_ends_at {A E : Type} (exec : Exec A E) (startState endState : Ptr)
    (w : World A E) (n : Nat) (wn w1 : World A E) (ret : Value)
    (hpath : pathFrom exec n startState w = some (endState, wn))
    (hfirst : ∀ k, k < n → ∀ p wk, pathFrom exec k startState w = some (p, wk) → p ≠ endState)
    (hret : callAction exec wn endState = some (ret, w1)) (m : Nat) (hm : n + 1 ≤ m) :
    RunGame exec startState endState w m
      = .Returned (ret, none) w1 (pathStates exec (n + 1) startState w) := by
  obtain ⟨a, rfl⟩ : ∃ a, m = a + (n + 1) := ⟨m - (n + 1), by omega⟩
  have hk := RunGame_along_path exec endState n startState w [] endState wn hpath hfirst
  unfold RunGame
  rw [Function.iterate_add_apply, Function.iterate_succ_apply', hk,
    RunGame_step_end exec endState wn w1 ret _ hret,
    RunGame_iterate_returned, pathStates_succ exec n startState w endState wn hpath]
  rfl

theorem RunGame_error_inv {A E : Type} (exec : Exec A E) (endState : Ptr) (n : Nat) :
    ∀ (p : Ptr) (w : World A E) (acc : List Ptr) (r : Value) (e : String) (w1 : World A E)
      (ex : List Ptr),
      (RunGame.step exec endState)^[n] (.Running p w acc) = .Returned (r, some e) w1 ex →
      ∃ k pk wk v nxt, k < n ∧ pathFrom exec k p w = some (pk, wk) ∧
        (∀ j, j ≤ k → ∀ q wj, pathFrom exec j p w = some (q, wj) → q ≠ endState) ∧
        callAction exec wk pk = some (v, w1) ∧ nextState w1 pk v = some (nxt, some e) ∧
        r = Value.nil ∧ ex = acc ++ pathStates exec (k + 1) p w := by
  induction n with
  | zero =>
    intro p w acc r e w1 ex h
    simp at h
  | succ n ih =>
    intro p w acc r e w1 ex h
    rw [Function.iterate_succ_apply] at h
    by_cases hp : p = endState
    · subst hp
      cases hc : callAction exec w p with
      | none =>
        have : RunGame.step exec p (.Running p w acc) = .Panicked := by
          simp [RunGame.step, hc]
        rw [this, RunGame_iterate_panicked] at h
        simp at h
      | some c =>
        obtain ⟨ret, w2⟩ := c
        rw [RunGame_step_end exec p w w2 ret acc hc, RunGame_iterate_returned] at h
        simp at h
    · cases hc : callAction exec w p with
      | none =>
        have : RunGame.step exec endState (.Running p w acc) = .Panicked := by
          simp [RunGame.step, hc, hp]
        rw [this, RunGame_iterate_panicked] at h
        simp at h
      | some c =>
        obtain ⟨ret, w2⟩ := c
        cases hn : nextState w2 p ret with
        | none =>
          have : RunGame.step exec endState (.Running p w acc) = .Panicked := by
            simp [RunGame.step, hc, hp, hn]
          rw [this, RunGame_iterate_panicked] at h
          simp at h
        | some res =>
          obtain ⟨nxt, err⟩ := res
          cases err with
          | some e2 =>
            rw [RunGame_step_fail exec endState p nxt w w2 ret e2 acc hp hc hn,
              RunGame_iterate_returned] at h
            simp only [RunState.Returned.injEq, Prod.mk.injEq, Option.some.injEq] at h
            obtain ⟨⟨h1, h2⟩, h3, h4⟩ := h
            subst h1 h2 h3 h4
            refine ⟨0, p, w, ret, nxt, Nat.succ_pos n, rfl, ?_, hc, hn, rfl, ?_⟩
            · intro j hj q wj hq
              obtain rfl : j = 0 := by omega
              simp only [pathFrom, Option.some.injEq, Prod.mk.injEq] at hq
              rw [← hq.1]
              exact hp
            · rw [pathStates_succ exec 0 p w p w rfl]
              rfl
          | none =>
            have hs : stepRule exec w p = some (ret, (nxt, none), w2) :=
              (stepRule_eq_some exec w w2 p ret _).2 ⟨hc, hn⟩
            rw [RunGame_step_advance exec endState p nxt w w2 ret acc hp hs] at h
            obtain ⟨k, pk, wk, v, nx, hk, hpath, hne, hact, hfail, hr, hex⟩ :=
              ih nxt w2 (acc ++ [p]) r e w1 ex h
            refine ⟨k + 1, pk, wk, v, nx, Nat.succ_lt_succ hk, ?_, ?_, hact, hfail, hr, ?_⟩
            · rw [(pathFrom_succ_of_step exec w w2 p nxt ret k hs).1]
              exact hpath
            · intro j hj q wj hq
              cases j with
              | zero =>
                simp only [pathFrom, Option.some.injEq, Prod.mk.injEq] at hq
                rw [← hq.1]
                exact hp
              | succ j =>
                rw [(pathFrom_succ_of_step exec w w2 p nxt ret j hs).1] at hq
                exact hne j (by omega) q wj hq
            · rw [hex, (pathFrom_succ_of_step exec w w2 p nxt ret (k + 1) hs).2]
              simp


theorem pathFrom_le {A E : Type} (exec : Exec A E) (n : Nat) :
    ∀ (p : Ptr) (w : World A E) (c : Ptr × World A E) (m : Nat),
      pathFrom exec n p w = some c → m ≤ n → ∃ q wm, pathFrom exec m p w = some (q, wm) := by
  induction n with
  | zero =>
    intro p w c m _ hm
    obtain rfl : m = 0 := by omega
    exact ⟨p, w, rfl⟩
  | succ n ih =>
    intro p w c m h hm
    cases m with
    | zero => exact ⟨p, w, rfl⟩
    | succ m =>
      obtain ⟨v, next, w1, hs, hrest⟩ := pathFrom_succ_some exec w p n _ h
      rw [(pathFrom_succ_of_step exec w w1 p next v m hs).1]
      exact ih next w1 c m hrest (by omega)

theorem RunGame_stable {A E : Type} (exec : Exec A E) (startState endState : Ptr)
    (w w1 : World A E) (n m : Nat) (r : Value × GoError) (ex : List Ptr)
    (h : RunGame exec startState endState w n = .Returned r w1 ex) (hm : n ≤ m) :
    RunGame exec startState endState w m = .Returned r w1 ex := by
  obtain ⟨a, rfl⟩ : ∃ a, m = a + n := ⟨m - n, by omega⟩
  unfold RunGame at h ⊢
  rw [Function.iterate_add_apply, h, RunGame_iterate_returned]

/-- C4: when the chain from `startState` reaches `endState` for the first time
after `n` resolutions, and the action of `endState` returns `ret` there,
`RunGame` returns `(ret, nil)` after `n + 1` passes and stays returned; the
actions it has executed are those of the `n + 1` states of the chain, in
order; `endState` is the last of them and occurs once. -/
theorem RunGame_reaches_end {A E : Type} (exec : Exec A E) (startState endState : Ptr)
    (w : World A E) (n : Nat) (wn w1 : World A E) (ret : Value)
    (hpath : pathFrom exec n startState w = some (endState, wn))
    (hfirst : ∀ k, k < n → ∀ p wk, pathFrom exec k startState w = some (p, wk) → p ≠ endState)
    (hret : callAction exec wn endState = some (ret, w1)) :
    ∃ executed : List Ptr,
      (∀ m, n + 1 ≤ m →
        RunGame exec startState endState w m = .Returned (ret, none) w1 executed) ∧
      (∀ m, m ≤ n → ∃ p wm ex, pathFrom exec m startState w = some (p, wm) ∧
        RunGame exec startState endState w m = .Running p wm ex) ∧
      executed.length = n + 1 ∧
      (∀ k, k ≤ n → executed[k]? = (pathFrom exec k startState w).map Prod.fst) ∧
      executed[n]? = some endState ∧ executed.count endState = 1 := by
  obtain ⟨hlen, hget⟩ := pathStates_spec exec n startState w _ hpath
  refine ⟨pathStates exec (n + 1) startState w, ?_, ?_, hlen, hget, ?_, ?_⟩
  · intro m hm
    exact RunGame_ends_at exec startState endState w n wn w1 ret hpath hfirst hret m hm
  · intro m hm
    obtain ⟨q, wm, hq⟩ := pathFrom_le exec n startState w _ m hpath hm
    exact ⟨q, wm, [] ++ pathStates exec m startState w, hq,
      RunGame_along_path exec endState m startState w [] q wm hq
        (fun j hj => hfirst j (by omega))⟩
  · rw [hget n (Nat.le_refl n), hpath]
    rfl
  · rw [pathStates_succ exec n startState w endState wn hpath, List.count_append]
    have h0 : List.count endState (pathStates exec n startState w) = 0 := by
      rw [List.count_eq_zero]
      intro hmem
      obtain ⟨j, wj, hj, hpj⟩ := mem_pathStates exec n startState w _ endState hpath hmem
      exact hfirst j hj endState wj hpj rfl
    rw [h0]
    simp

/-- C4 on the graph of `TestTransitions`, run from state 1 to state 5. -/
theorem RunGame_reaches_end_witness :
    pathFrom constExec 4 (some 0) testWorld = some (some 4, testWorld) ∧
    (∀ k, k < 4 → ∀ p wk, pathFrom constExec k (some 0) testWorld = some (p, wk) →
      p ≠ some 4) ∧
    callAction constExec testWorld (some 4) = some (Value.int 5, testWorld) ∧
    ∃ executed : List Ptr,
      (∀ m, 4 + 1 ≤ m →
        RunGame constExec (some 0) (some 4) testWorld m
          = .Returned (Value.int 5, none) testWorld executed) ∧
      (∀ m, m ≤ 4 → ∃ p wm ex, pathFrom constExec m (some 0) testWorld = some (p, wm) ∧
        RunGame constExec (some 0) (some 4) testWorld m = .Running p wm ex) ∧
      executed.length = 4 + 1 ∧
      (∀ k, k ≤ 4 → executed[k]? = (pathFrom constExec k (some 0) testWorld).map Prod.fst) ∧
      executed[4]? = some (some 4) ∧ executed.count (some 4) = 1 :=
  have hfirst : ∀ k, k < 4 → ∀ p wk, pathFrom constExec k (some 0) testWorld = some (p, wk) →
      p ≠ some 4 := by
    intro k hk p wk h
    have hk4 : k = 0 ∨ k = 1 ∨ k = 2 ∨ k = 3 := by omega
    rcases hk4 with rfl | rfl | rfl | rfl
    · rw [show pathFrom constExec 0 (some 0) testWorld = some (some 0, testWorld) by decide] at h
      cases h
      decide
    · rw [show pathFrom constExec 1 (some 0) testWorld = some (some 2, testWorld) by decide] at h
      cases h
      decide
    · rw [show pathFrom constExec 2 (some 0) testWorld = some (some 3, testWorld) by decide] at h
      cases h
      decide
    · rw [show pathFrom constExec 3 (some 0) testWorld = some (some 1, testWorld) by decide] at h
      cases h
      decide
  ⟨by decide, hfirst, by decide,
   RunGame_reaches_end constExec (some 0) (some 4) testWorld 4 testWorld testWorld (Value.int 5)
     (by decide) hfirst (by decide)⟩

/-- C5: a run of `RunGame` that has returned `(result, err)` has `err` not nil
exactly when some state of the chain, met before `endState`, has a resolution
that returns an error for the value its action just produced.  In that case
the result is nil, the world is the one that action left, the executed
actions are those of the chain up to that state (the last one executed), and
`endState` is not among them.  Such a state makes the run return. -/
theorem RunGame_error_iff {A E : Type} (exec : Exec A E) (startState endState : Ptr)
    (w w1 : World A E) (n : Nat) (result : Value) (err : GoError) (executed : List Ptr)
    (hrun : RunGame exec startState endState w n = .Returned (result, err) w1 executed) :
    (err ≠ none ↔
      ∃ k p wk v w2 nxt e, pathFrom exec k startState w = some (p, wk) ∧
        (∀ j, j ≤ k → ∀ q wj, pathFrom exec j startState w = some (q, wj) → q ≠ endState) ∧
        callAction exec wk p = some (v, w2) ∧ nextState w2 p v = some (nxt, some e)) ∧
    (err ≠ none →
      result = Value.nil ∧ endState ∉ executed ∧
      ∃ k p wk v nxt, pathFrom exec k startState w = some (p, wk) ∧
        callAction exec wk p = some (v, w1) ∧ nextState w1 p v = some (nxt, err) ∧
        executed.length = k + 1 ∧ executed[k]? = some p ∧
        (∀ j, j ≤ k → executed[j]? = (pathFrom exec j startState w).map Prod.fst)) ∧
    (∀ k p wk v w2 nxt e, pathFrom exec k startState w = some (p, wk) →
      (∀ j, j ≤ k → ∀ q wj, pathFrom exec j startState w = some (q, wj) → q ≠ endState) →
      callAction exec wk p = some (v, w2) → nextState w2 p v = some (nxt, some e) →
      ∀ m, k + 1 ≤ m → ∃ ex, RunGame exec startState endState w m
        = .Returned (Value.nil, some e) w2 ex) := by
  have hinv : ∀ e, err = some e →
      ∃ k pk wk v nxt, k < n ∧ pathFrom exec k startState w = some (pk, wk) ∧
        (∀ j, j ≤ k → ∀ q wj, pathFrom exec j startState w = some (q, wj) → q ≠ endState) ∧
        callAction exec wk pk = some (v, w1) ∧ nextState w1 pk v = some (nxt, some e) ∧
        result = Value.nil ∧ executed = [] ++ pathStates exec (k + 1) startState w := by
    intro e he
    subst he
    exact RunGame_error_inv exec endState n startState w [] result e w1 executed hrun
  refine ⟨⟨?_, ?_⟩, ?_, ?_⟩
  · intro hne
    obtain ⟨e, he⟩ := Option.ne_none_iff_exists'.1 hne
    obtain ⟨k, pk, wk, v, nxt, _, hpath, hnot, hact, hfail, _, _⟩ := hinv e he
    exact ⟨k, pk, wk, v, w1, nxt, e, hpath, hnot, hact, hfail⟩
  · rintro ⟨k, p, wk, v, w2, nxt, e, hpath, hnot, hact, hfail⟩
    have h1 := RunGame_fails_at exec startState endState w k p nxt wk w2 v e hpath hnot hact
      hfail (max n (k + 1)) (le_max_right _ _)
    have h2 := RunGame_stable exec startState endState w w1 n (max n (k + 1)) _ _ hrun
      (le_max_left _ _)
    rw [h1] at h2
    simp only [RunState.Returned.injEq, Prod.mk.injEq] at h2
    rw [← h2.1.2]
    simp
  · intro hne
    obtain ⟨e, he⟩ := Option.ne_none_iff_exists'.1 hne
    obtain ⟨k, pk, wk, v, nxt, _, hpath, hnot, hact, hfail, hres, hex⟩ := hinv e he
    rw [List.nil_append] at hex
    obtain ⟨hlen, hget⟩ := pathStates_spec exec k startState w _ hpath
    refine ⟨hres, ?_, k, pk, wk, v, nxt, hpath, hact, he ▸ hfail, hex ▸ hlen, ?_, hex ▸ hget⟩
    · rw [hex]
      intro hmem
      have hpath1 : ∃ c, pathFrom exec k startState w = some c := ⟨_, hpath⟩
      rw [pathStates_succ exec k startState w pk wk hpath, List.mem_append] at hmem
      rcases hmem with hmem | hmem
      · obtain ⟨j, wj, hj, hpj⟩ := mem_pathStates exec k startState w _ endState hpath hmem
        exact hnot j (Nat.le_of_lt hj) endState wj hpj rfl
      · rw [List.mem_singleton] at hmem
        exact hnot k (Nat.le_refl k) pk wk hpath hmem.symm
    · rw [hex, hget k (Nat.le_refl k), hpath]
      rfl
  · intro k p wk v w2 nxt e hpath hnot hact hfail m hm
    exact ⟨_, RunGame_fails_at exec startState endState w k p nxt wk w2 v e hpath hnot hact
      hfail m hm⟩

/-- C5 on the graph of `TestTransitions`, run from state 5 (which has no transition) towards state 1. -/
theorem RunGame_error_iff_witness :
    RunGame constExec (some 4) (some 0) testWorld 1
      = .Returned (Value.nil, some errNoTransition) testWorld [some 4] ∧
    ((some errNoTransition : GoError) ≠ none →
      Value.nil = Value.nil ∧ (some 0 : Ptr) ∉ [(some 4 : Ptr)] ∧
      ∃ k p wk v nxt, pathFrom constExec k (some 4) testWorld = some (p, wk) ∧
        callAction constExec wk p = some (v, testWorld) ∧
        nextState testWorld p v = some (nxt, some errNoTransition) ∧
        [(some 4 : Ptr)].length = k + 1 ∧ [(some 4 : Ptr)][k]? = some p ∧
        (∀ j, j ≤ k → [(some 4 : Ptr)][j]?
          = (pathFrom constExec j (some 4) testWorld).map Prod.fst)) :=
  ⟨by decide,
   (RunGame_error_iff constExec (some 4) (some 0) testWorld testWorld 1 Value.nil
     (some errNoTransition) [some 4] (by decide)).2.1⟩

/-- C6: when the chain from `startState` reaches after `n` resolutions a state
`p` whose action produces `v` and whose resolution for `v` returns an error,
`RunGameToEnd` runs the actions of the chain's states up to `p`, in order,
and returns `v` (a value, with no error component) after `n + 1` passes;
before that it is still running along the chain. -/
theorem RunGameToEnd_stops {A E : Type} (exec : Exec A E) (startState : Ptr)
    (w : World A E) (n : Nat) (p nxt : Ptr) (wn w1 : World A E) (v : Value) (e : String)
    (hpath : pathFrom exec n startState w = some (p, wn))
    (hact : callAction exec wn p = some (v, w1))
    (hfail : nextState w1 p v = some (nxt, some e)) :
    ∃ executed : List Ptr,
      (∀ m, n + 1 ≤ m → RunGameToEnd exec startState w m = .Returned v w1 executed) ∧
      (∀ m, m ≤ n → ∃ q wm ex, pathFrom exec m startState w = some (q, wm) ∧
        RunGameToEnd exec startState w m = .Running q wm ex) ∧
      executed.length = n + 1 ∧
      (∀ k, k ≤ n → executed[k]? = (pathFrom exec k startState w).map Prod.fst) ∧
      executed[n]? = some p := by
  obtain ⟨hlen, hget⟩ := pathStates_spec exec n startState w _ hpath
  refine ⟨pathStates exec (n + 1) startState w, ?_, ?_, hlen, hget, ?_⟩
  · intro m hm
    obtain ⟨a, rfl⟩ : ∃ a, m = a + (n + 1) := ⟨m - (n + 1), by omega⟩
    have hk := RunGameToEnd_along_path exec n startState w [] p wn hpath
    unfold RunGameToEnd
    rw [Function.iterate_add_apply, Function.iterate_succ_apply', hk,
      RunGameToEnd_step_fail exec p nxt wn w1 v e _ hact hfail,
      RunGameToEnd_iterate_returned, pathStates_succ exec n startState w p wn hpath]
    rfl
  · intro m hm
    obtain ⟨q, wm, hq⟩ := pathFrom_le exec n startState w _ m hpath hm
    exact ⟨q, wm, [] ++ pathStates exec m startState w, hq,
      RunGameToEnd_along_path exec m startState w [] q wm hq⟩
  · rw [hget n (Nat.le_refl n), hpath]
    rfl

/-- C6 on the graph of `TestTransitions`, run from state 1: state 5 has no transition. -/
theorem RunGameToEnd_stops_witness :
    pathFrom constExec 4 (some 0) testWorld = some (some 4, testWorld) ∧
    callAction constExec testWorld (some 4) = some (Value.int 5, testWorld) ∧
    nextState testWorld (some 4) (Value.int 5) = some (none, some errNoTransition) ∧
    ∃ executed : List Ptr,
      (∀ m, 4 + 1 ≤ m →
        RunGameToEnd constExec (some 0) testWorld m = .Returned (Value.int 5) testWorld executed) ∧
      (∀ m, m ≤ 4 → ∃ q wm ex, pathFrom constExec m (some 0) testWorld = some (q, wm) ∧
        RunGameToEnd constExec (some 0) testWorld m = .Running q wm ex) ∧
      executed.length = 4 + 1 ∧
      (∀ k, k ≤ 4 → executed[k]? = (pathFrom constExec k (some 0) testWorld).map Prod.fst) ∧
      executed[4]? = some (some 4) :=
  ⟨by decide, by decide, by decide,
   RunGameToEnd_stops constExec (some 0) testWorld 4 (some 4) none testWorld testWorld
     (Value.int 5) errNoTransition (by decide) (by decide) (by decide)⟩

/-! ## Frames of the map operations and the registry -/

theorem mapGet_mapSet_other {K V : Type} (eq : K → K → Bool)
    (heq : ∀ a b, eq a b = true → a = b) (m : List (K × V)) (k i : K) (v : V)
    (hik : i ≠ k) : mapGet eq (mapSet eq m k v) i = mapGet eq m i := by
  induction m with
  | nil =>
    have : eq k i = false := by
      cases h : eq k i with
      | false => rfl
      | true => exact absurd (heq k i h).symm hik
    simp [mapSet, mapGet, this]
  | cons e rest ih =>
    obtain ⟨k', v'⟩ := e
    by_cases h : eq k' k = true
    · have h2 : eq k' i = false := by
        cases h3 : eq k' i with
        | false => rfl
        | true => exact absurd ((heq k' i h3).symm.trans (heq k' k h)) hik
      simp [mapSet, mapGet, h, h2]
    · simp [mapSet, mapGet, h, ih]

theorem mapGet_mapDelete_other {K V : Type} (eq : K → K → Bool)
    (heq : ∀ a b, eq a b = true → a = b) (m : List (K × V)) (k i : K)
    (hik : i ≠ k) : mapGet eq (mapDelete eq m k) i = mapGet eq m i := by
  induction m with
  | nil => simp [mapDelete, mapGet]
  | cons e rest ih =>
    obtain ⟨k', v'⟩ := e
    simp only [mapDelete] at ih ⊢
    by_cases h : eq k' k = true
    · have h2 : eq k' i = false := by
        cases h3 : eq k' i with
        | false => rfl
        | true => exact absurd ((heq k' i h3).symm.trans (heq k' k h)) hik
      simp [List.filter_cons, mapGet, h, h2, ih]
    · simp [List.filter_cons, mapGet, h, ih]

theorem idEq_eq (a b : Nat) (h : idEq a b = true) : a = b := by simpa [idEq] using h
theorem strEq_eq (a b : String) (h : strEq a b = true) : a = b := by simpa [strEq] using h
theorem keyEq_eq (a b : Value) (h : Value.keyEq a b = true) : a = b := ((keyEq_iff a b).1 h).2.2

theorem createStates_counter {A E : Type} (acts : List A) (w : World A E)
    (hc : w.gameMap.nextStateID < uint32Size) :
    (createStates acts w).2.gameMap.nextStateID
      = (w.gameMap.nextStateID + acts.length) % uint32Size := by
  induction acts generalizing w with
  | nil => simp [createStates, Nat.mod_eq_of_lt hc]
  | cons a rest ih =>
    have h1 : (NewGameState a w).2.gameMap.nextStateID
        = (w.gameMap.nextStateID + 1) % uint32Size := rfl
    simp only [createStates]
    rw [ih _ (by rw [h1]; exact Nat.mod_lt _ (by decide)), h1, Nat.mod_add_mod,
      List.length_cons]
    congr 1
    omega

theorem NewGameState_counter {A E : Type} (a : A) (w : World A E) (c : Nat)
    (hc : w.gameMap.nextStateID = c) (h : c + 1 < uint32Size) :
    (NewGameState a w).2.gameMap.nextStateID = c + 1 := by
  show (w.gameMap.nextStateID + 1) % uint32Size = _
  rw [hc]
  exact Nat.mod_eq_of_lt h

theorem createStates_registry_other {A E : Type} (acts : List A) (w : World A E) (c i : Nat)
    (hc : w.gameMap.nextStateID = c) (hlen : c + acts.length ≤ uint32Size)
    (hi : i < c ∨ c + acts.length ≤ i) :
    mapGet idEq (createStates acts w).2.gameMap.states i = mapGet idEq w.gameMap.states i := by
  induction acts generalizing w c with
  | nil => rfl
  | cons a rest ih =>
    simp only [createStates]
    simp only [List.length_cons] at hlen hi
    have hset : mapGet idEq (NewGameState a w).2.gameMap.states i
        = mapGet idEq w.gameMap.states i := by
      simp only [NewGameState, hc]
      exact mapGet_mapSet_other idEq idEq_eq _ _ _ _ (by omega)
    cases rest with
    | nil => exact hset
    | cons b rest2 =>
      simp only [List.length_cons] at hlen hi ih
      have h1 := NewGameState_counter a w c hc (by omega)
      rw [ih (NewGameState a w).2 (c + 1) h1 (by omega) (by omega)]
      exact hset

theorem createStates_registry {A E : Type} (acts : List A) (w : World A E) (c len k : Nat)
    (hc : w.gameMap.nextStateID = c) (hL : w.heap.length = len)
    (hlen : c + acts.length ≤ uint32Size) (hk : k < acts.length) :
    mapGet idEq (createStates acts w).2.gameMap.states (c + k) = some (some (len + k)) := by
  induction acts generalizing w c len k with
  | nil => simp at hk
  | cons a rest ih =>
    simp only [createStates]
    have hset : mapGet idEq (NewGameState a w).2.gameMap.states c = some (some len) := by
      simp only [NewGameState, hc, hL]
      exact mapGet_mapSet_self idEq _ _ _ (by simp [idEq])
    cases rest with
    | nil =>
      simp only [List.length_cons, List.length_nil] at hk
      obtain rfl : k = 0 := by omega
      exact hset
    | cons b rest2 =>
      simp only [List.length_cons] at hlen hk ih
      have h1 := NewGameState_counter a w c hc (by omega)
      have h2 : (NewGameState a w).2.heap.length = len + 1 := by
        simp [NewGameState, hL]
      cases k with
      | zero =>
        rw [createStates_registry_other _ _ (c + 1) _ h1
          (by simp only [List.length_cons]; omega) (by omega)]
        exact hset
      | succ k =>
        have := ih (NewGameState a w).2 (c + 1) (len + 1) k h1 h2 (by omega) (by omega)
        rw [show c + (k + 1) = c + 1 + k by omega, show len + (k + 1) = len + 1 + k by omega]
        exact this

theorem deref_NewGameState_old {A E : Type} (a : A) (w : World A E) (q : Ptr) (s : GameState A)
    (hs : w.deref q = some s) : (NewGameState a w).2.deref q = some s := by
  cases q with
  | none => simp [World.deref] at hs
  | some b =>
    simp only [World.deref] at hs
    simp only [World.deref, NewGameState]
    have hb : b < w.heap.length := by
      by_contra hcon
      rw [List.getElem?_eq_none (by omega)] at hs
      exact Option.noConfusion hs
    rw [List.getElem?_append_left hb]
    exact hs

theorem deref_NewGameState_new {A E : Type} (a : A) (w : World A E) :
    (NewGameState a w).2.deref (NewGameState a w).1
      = some { id := w.gameMap.nextStateID, action := a, transitions := [],
               defaultTransition := none } := by
  simp [World.deref, NewGameState]

theorem registry_fresh_identity {A E : Type} (acts : List A) (env : E) (i : Nat) (q : Ptr)
    (hlen : acts.length < uint32Size)
    (h : mapGet idEq (createStates acts (World.initial env : World A E)).2.gameMap.states i
      = some q) :
    i ≠ (createStates acts (World.initial env : World A E)).2.gameMap.nextStateID := by
  have h0 : (World.initial env : World A E).gameMap.nextStateID = 0 := rfl
  rw [createStates_counter acts _ (by rw [h0]; decide), h0, Nat.zero_add,
    Nat.mod_eq_of_lt hlen]
  intro hi
  rw [createStates_registry_other acts _ 0 i h0 (by omega) (Or.inr (by omega))] at h
  simp [World.initial, mapGet] at h

/-- The wrap of the identity counter seen in the registry: after `2 ^ 32`
calls of `NewGameState` on the initial graph the state at address 0, of
identity 0, is registered under 0, and one more call registers the new state
(at address `2 ^ 32`) under 0. -/
theorem registry_wrap_around :
    mapGet idEq (createStates (List.replicate uint32Size ())
      (World.initial () : World Unit Unit)).2.gameMap.states 0 = some (some 0) ∧
    ((createStates (List.replicate uint32Size ())
      (World.initial () : World Unit Unit)).2.deref (some 0)).map (fun s => s.id) = some 0 ∧
    mapGet idEq (NewGameState () (createStates (List.replicate uint32Size ())
      (World.initial () : World Unit Unit)).2).2.gameMap.states 0 = some (some uint32Size) := by
  have h0 : (World.initial () : World Unit Unit).gameMap.nextStateID = 0 := rfl
  have hL : (World.initial () : World Unit Unit).heap.length = 0 := rfl
  have hlen : (List.replicate uint32Size ()).length = uint32Size := List.length_replicate _ _
  have hS : 0 < uint32Size := by decide
  refine ⟨?_, ?_, ?_⟩
  · have := createStates_registry (List.replicate uint32Size ())
      (World.initial () : World Unit Unit) 0 0 0 h0 hL (by rw [hlen]; omega) (by rw [hlen]; exact hS)
    exact this
  · obtain ⟨h1, _⟩ := createStates_heap (List.replicate uint32Size ())
      (World.initial () : World Unit Unit)
    simp only [World.deref, h1, h0]
    have := newCells_get (List.replicate uint32Size ()) 0 0 hS (by rw [hlen]; exact hS)
    rw [show (World.initial () : World Unit Unit).heap = [] from rfl, List.nil_append]
    exact this
  · obtain ⟨h1, _⟩ := createStates_heap (List.replicate uint32Size ())
      (World.initial () : World Unit Unit)
    have hc := createStates_counter (List.replicate uint32Size ())
      (World.initial () : World Unit Unit) (by rw [h0]; exact hS)
    rw [h0, hlen, Nat.zero_add, Nat.mod_self] at hc
    have hl : (createStates (List.replicate uint32Size ())
        (World.initial () : World Unit Unit)).2.heap.length = uint32Size := by
      rw [h1, List.length_append, newCells_length, hlen]
      rfl
    simp only [NewGameState, hc, hl]
    exact mapGet_mapSet_self idEq _ _ _ (by simp [idEq])

/-- C11 (as stated, refuted): on the state `NewGameState` has just made on the
initial graph, `nextState` does not return its error for the value
`[]int{1}`: the lookup in the empty table panics and nothing is returned. -/
theorem fresh_state_unhashable :
    nextState (NewGameState () (World.initial () : World Unit Unit)).2
      (NewGameState () (World.initial () : World Unit Unit)).1 (Value.slice [1]) = none ∧
    ¬ ∃ p e, nextState (NewGameState () (World.initial () : World Unit Unit)).2
      (NewGameState () (World.initial () : World Unit Unit)).1 (Value.slice [1])
        = some (p, some e) := by
  have h0 : nextState (NewGameState () (World.initial () : World Unit Unit)).2
      (NewGameState () (World.initial () : World Unit Unit)).1 (Value.slice [1]) = none := by
    decide
  refine ⟨h0, ?_⟩
  rintro ⟨p, e, h⟩
  rw [h0] at h
  exact Option.noConfusion h

/-- C11 (amended): in every world, the state returned by `NewGameState(a)` has
the current counter as identity, the action `a`, an empty table and no
default; on it `nextState` returns the error for every hashable value; it is
registered under its identity; every state of the heap is read unchanged
through its pointer; and a state registered before under another identity
stays registered there.  In a graph made by fewer than `2 ^ 32` calls of
`NewGameState` on the initial graph, every registered identity is another
one than the identity about to be assigned. -/
theorem NewGameState_fresh {A E : Type} (a : A) (w : World A E) :
    (NewGameState a w).2.deref (NewGameState a w).1
      = some { id := w.gameMap.nextStateID, action := a, transitions := [],
               defaultTransition := none } ∧
    (∀ v : Value, v.hashable = true →
      nextState (NewGameState a w).2 (NewGameState a w).1 v
        = some (none, some errNoTransition)) ∧
    mapGet idEq (NewGameState a w).2.gameMap.states w.gameMap.nextStateID
      = some (NewGameState a w).1 ∧
    (∀ (q : Ptr) (s : GameState A), w.deref q = some s →
      (NewGameState a w).2.deref q = some s) ∧
    (∀ (i : Nat) (q : Ptr), i ≠ w.gameMap.nextStateID →
      mapGet idEq w.gameMap.states i = some q →
      mapGet idEq (NewGameState a w).2.gameMap.states i = some q) ∧
    (∀ (acts : List A) (env : E) (j : Nat) (p : Ptr), acts.length < uint32Size →
      mapGet idEq (createStates acts (World.initial env : World A E)).2.gameMap.states j
        = some p →
      j ≠ (createStates acts (World.initial env : World A E)).2.gameMap.nextStateID) := by
  refine ⟨deref_NewGameState_new a w, ?_, ?_, fun q s hs => deref_NewGameState_old a w q s hs,
    ?_, ?_⟩
  · intro v hv
    simp only [nextState, deref_NewGameState_new, Option.some_bind]
    rw [nextState_of_hashable _ v hv]
    simp [mapGet]
  · simp only [NewGameState]
    exact mapGet_mapSet_self idEq _ _ _ (by simp [idEq])
  · intro i q hi hreg
    simp only [NewGameState]
    rw [mapGet_mapSet_other idEq idEq_eq _ _ _ _ hi]
    exact hreg
  · intro acts env j p hlen h
    exact registry_fresh_identity acts env j p hlen h

/-- C11 (amended) on the initial graph, where the first state is made, and on
the graph of `TestTransitions`, where a sixth state is made and state 1
(identity 0) stays registered and unchanged. -/
theorem NewGameState_fresh_witness :
    ((NewGameState 9 (World.initial () : World Int Unit)).2.deref
        (NewGameState 9 (World.initial () : World Int Unit)).1
      = some { id := 0, action := 9, transitions := [], defaultTransition := none } ∧
      nextState (NewGameState 9 (World.initial () : World Int Unit)).2
        (NewGameState 9 (World.initial () : World Int Unit)).1 (Value.int 1)
          = some (none, some errNoTransition) ∧
      mapGet idEq (NewGameState 9 (World.initial () : World Int Unit)).2.gameMap.states 0
        = some (NewGameState 9 (World.initial () : World Int Unit)).1) ∧
    ((NewGameState 9 testWorld).2.deref (NewGameState 9 testWorld).1
      = some { id := 5, action := 9, transitions := [], defaultTransition := none } ∧
      nextState (NewGameState 9 testWorld).2 (NewGameState 9 testWorld).1 (Value.int 1)
        = some (none, some errNoTransition) ∧
      mapGet idEq (NewGameState 9 testWorld).2.gameMap.states 5
        = some (NewGameState 9 testWorld).1 ∧
      mapGet idEq (NewGameState 9 testWorld).2.gameMap.states 0 = some (some 0) ∧
      (NewGameState 9 testWorld).2.deref (some 0)
        = some { id := 0, action := 1, transitions := [], defaultTransition := some 2 }) :=
  have h0 := NewGameState_fresh 9 (World.initial () : World Int Unit)
  have h := NewGameState_fresh 9 testWorld
  ⟨⟨h0.1, h0.2.1 (Value.int 1) (by decide), h0.2.2.1⟩,
   ⟨h.1, h.2.1 (Value.int 1) (by decide), h.2.2.1,
    h.2.2.2.2.1 0 (some 0) (by decide) (by decide),
    h.2.2.2.1 (some 0) _ (by decide)⟩⟩

/-! ## Writing through a pointer -/

theorem deref_store_self {A E : Type} (w : World A E) (a : Nat) (s : GameState A)
    (h : a < w.heap.length) : (w.store a s).deref (some a) = some s := by
  simp only [World.deref, World.store]
  exact List.getElem?_set_self h

theorem deref_store_other {A E : Type} (w : World A E) (a : Nat) (s : GameState A) (p : Ptr)
    (h : p ≠ some a) : (w.store a s).deref p = w.deref p := by
  cases p with
  | none => rfl
  | some b =>
    simp only [World.deref, World.store]
    exact List.getElem?_set_ne (fun hab => h (by rw [hab]))

theorem lt_length_of_getElem? {α : Type} (l : List α) (a : Nat) (x : α)
    (h : l[a]? = some x) : a < l.length := by
  by_contra hcon
  rw [List.getElem?_eq_none (by omega)] at h
  exact Option.noConfusion h

theorem Transition_some {A E : Type} (w : World A E) (a : Nat) (q : Ptr) (s : GameState A)
    (hs : w.heap[a]? = some s) :
    Transition (some a) q w = some (w.store a (s.Transition q)) := by
  simp [Transition, World.deref, hs]

theorem TransitionOn_some {A E : Type} (w : World A E) (a : Nat) (q : Ptr) (k : Value)
    (s : GameState A) (hs : w.heap[a]? = some s) (hk : k.hashable = true) :
    TransitionOn (some a) q k w
      = some (w.store a { s with transitions := mapSet Value.keyEq s.transitions k q }) := by
  simp [TransitionOn, World.deref, hs, GameState.TransitionOn, hk]

/-! ## Wiring a chain -/

theorem isFresh_iff {A E : Type} (w : World A E) (a : Nat) :
    isFresh w a = true ↔
      ∃ s, w.heap[a]? = some s ∧ s.transitions = [] ∧ s.defaultTransition = none := by
  unfold isFresh
  cases h : w.heap[a]? with
  | none => simp
  | some s => simp [List.isEmpty_iff, Option.isNone_iff_eq_none]

theorem returnsKey_iff {A E : Type} (val : A → Value) (w : World A E) (a : Nat) :
    returnsKey val w a = true ↔ ∃ s, w.heap[a]? = some s ∧ (val s.action).isKey = true := by
  unfold returnsKey
  cases h : w.heap[a]? with
  | none => simp
  | some s => simp

/-- What a wiring call must do on a fresh state whose action returns a key:
write that state only, keep its action, and make it resolve to `q` on the
value its action returns. -/
theorem wireWith_spec {A E : Type} (val : A → Value)
    (wire : Ptr → Ptr → World A E → Option (World A E))
    (hwire : ∀ (a b : Nat) (u : World A E) (s : GameState A), u.heap[a]? = some s →
      s.transitions = [] → s.defaultTransition = none → (val s.action).isKey = true →
      ∃ s', wire (some a) (some b) u = some (u.store a s') ∧ s'.action = s.action ∧
        s'.nextState (val s.action) = some (some b, none)) :
    ∀ (ps : List Nat) (w : World A E), ps.Nodup → (∀ a ∈ ps, isFresh w a = true) →
      (∀ a ∈ ps.dropLast, returnsKey val w a = true) →
      ∃ w1, wireWith wire (ps.map some) w = some w1 ∧
        List.Chain' (fun a b => ∃ s, w1.heap[a]? = some s ∧
          s.nextState (val s.action) = some (some b, none)) ps ∧
        (∀ a, returnedBy val w1 a = returnedBy val w a) ∧
        (∀ a, a ∉ ps.dropLast → w1.heap[a]? = w.heap[a]?) := by
  intro ps
  induction ps with
  | nil =>
    intro w _ _ _
    exact ⟨w, rfl, List.chain'_nil, fun _ => rfl, fun _ _ => rfl⟩
  | cons p rest ih =>
    intro w hnd hfresh hkey
    cases rest with
    | nil => exact ⟨w, rfl, List.chain'_singleton p, fun _ => rfl, fun _ _ => rfl⟩
    | cons q rest2 =>
      obtain ⟨s, hs, ht, hd⟩ := (isFresh_iff w p).1 (hfresh p (List.mem_cons_self _ _))
      obtain ⟨s0, hs0, hk⟩ := (returnsKey_iff val w p).1
        (hkey p (by simp [List.dropLast]))
      rw [hs] at hs0
      obtain rfl := Option.some.inj hs0
      obtain ⟨s', hw, hact, hres⟩ := hwire p q w s hs ht hd hk
      have hplt : p < w.heap.length := lt_length_of_getElem? _ _ _ hs
      have hpn : p ∉ q :: rest2 := (List.nodup_cons.1 hnd).1
      have hother : ∀ a, a ≠ p → (w.store p s').heap[a]? = w.heap[a]? := by
        intro a ha
        simp only [World.store]
        exact List.getElem?_set_ne (fun h => ha h.symm)
      have hself : (w.store p s').heap[p]? = some s' := by
        simp only [World.store]
        exact List.getElem?_set_self hplt
      obtain ⟨w1, hw1, hchain, hret, hframe⟩ := ih (w.store p s') (List.nodup_cons.1 hnd).2
        (by
          intro a ha
          have hap : a ≠ p := fun h => hpn (h ▸ ha)
          have := hfresh a (List.mem_cons_of_mem _ ha)
          simpa only [isFresh, hother a hap] using this)
        (by
          intro a ha
          have hap : a ≠ p := fun h => hpn (h ▸ List.mem_of_mem_dropLast ha)
          have := hkey a (by
            rw [List.dropLast_cons_of_ne_nil (List.cons_ne_nil _ _)]
            exact List.mem_cons_of_mem _ ha)
          simpa only [returnsKey, hother a hap] using this)
      refine ⟨w1, ?_, ?_, ?_, ?_⟩
      · simp only [List.map_cons, wireWith, hw, Option.some_bind]
        simpa only [List.map_cons] using hw1
      · refine List.chain'_cons.2 ⟨⟨s', ?_, ?_⟩, hchain⟩
        · rw [hframe p (fun h => hpn (List.mem_of_mem_dropLast h)), hself]
        · rw [hact]
          exact hres
      · intro a
        rw [hret a]
        by_cases hap : a = p
        · subst hap
          simp only [returnedBy, hself, hs, hact]
        · simp only [returnedBy, hother a hap]
      · intro a ha
        rw [List.dropLast_cons_of_ne_nil (List.cons_ne_nil _ _), List.mem_cons, not_or] at ha
        rw [hframe a ha.2, hother a ha.1]

theorem wireDefaults_spec {A E : Type} (val : A → Value) (a b : Nat) (u : World A E)
    (s : GameState A) (hs : u.heap[a]? = some s) (ht : s.transitions = [])
    (_hd : s.defaultTransition = none) (hk : (val s.action).isKey = true) :
    ∃ s', (fun p q u => Transition p q u) (some a) (some b) u = some (u.store a s') ∧
      s'.action = s.action ∧ s'.nextState (val s.action) = some (some b, none) := by
  refine ⟨s.Transition (some b), Transition_some u a (some b) s hs, rfl, ?_⟩
  rw [nextState_of_hashable _ _ ((isKey_iff _).1 hk).1]
  simp [GameState.Transition, ht, mapGet]

theorem wireConditional_spec {A E : Type} (val : A → Value) (a b : Nat) (u : World A E)
    (s : GameState A) (hs : u.heap[a]? = some s) (_ht : s.transitions = [])
    (_hd : s.defaultTransition = none) (hk : (val s.action).isKey = true) :
    ∃ s', (fun p q (u : World A E) =>
        (u.deref p).bind (fun s => TransitionOn p q (val s.action) u)) (some a) (some b) u
          = some (u.store a s') ∧
      s'.action = s.action ∧ s'.nextState (val s.action) = some (some b, none) := by
  have hh := ((isKey_iff _).1 hk).1
  refine ⟨{ s with transitions := mapSet Value.keyEq s.transitions (val s.action) (some b) },
    ?_, rfl, ?_⟩
  · simp only [World.deref, hs, Option.some_bind]
    exact TransitionOn_some u a (some b) (val s.action) s hs hh
  · rw [nextState_of_hashable _ _ hh]
    simp only
    rw [mapGet_mapSet_self Value.keyEq _ _ _ hk]

/-- With actions that return fixed values, `RunGame` walks a list of distinct
states each of which resolves to the next one. -/
theorem RunGame_along_chain {A E : Type} (val : A → Value) (w : World A E) (endA : Nat) :
    ∀ (rest : List Nat) (p : Nat) (acc : List Ptr),
      List.Chain' (fun a b => ∃ s, w.heap[a]? = some s ∧
        s.nextState (val s.action) = some (some b, none)) (p :: rest) →
      (p :: rest).Nodup → (p :: rest).getLast (List.cons_ne_nil _ _) = endA →
      (RunGame.step (fixedExec val) (some endA))^[rest.length] (.Running (some p) w acc)
        = .Running (some endA) w (acc ++ ((p :: rest).dropLast).map some) := by
  intro rest
  induction rest with
  | nil =>
    intro p acc _ _ hlast
    simp only [List.getLast_singleton] at hlast
    subst hlast
    simp
  | cons q rest2 ih =>
    intro p acc hchain hnd hlast
    obtain ⟨⟨s, hs, hres⟩, hchain2⟩ := List.chain'_cons.1 hchain
    rw [List.getLast_cons (List.cons_ne_nil _ _)] at hlast
    have hpn : p ∉ q :: rest2 := (List.nodup_cons.1 hnd).1
    have hp : (some p : Ptr) ≠ some endA := by
      intro h
      have h2 : p = endA := Option.some.inj h
      apply hpn
      rw [h2, ← hlast]
      exact List.getLast_mem _
    have hstep : stepRule (fixedExec val) w (some p)
        = some (val s.action, (some q, none), w) := by
      refine (stepRule_eq_some _ w w (some p) _ _).2 ⟨?_, ?_⟩
      · simp [callAction, World.deref, hs, fixedExec]
      · simp [nextState, World.deref, hs, hres]
    rw [List.length_cons, Function.iterate_succ_apply,
      RunGame_step_advance _ (some endA) (some p) (some q) w w _ acc hp hstep,
      ih q (acc ++ [some p]) hchain2 (List.nodup_cons.1 hnd).2 hlast,
      List.dropLast_cons_of_ne_nil (List.cons_ne_nil _ _)]
    simp

theorem RunGame_chain_returns {A E : Type} (val : A → Value) (w : World A E)
    (ps : List Nat) (hne : ps ≠ []) (hnd : ps.Nodup) (s : GameState A)
    (hchain : List.Chain' (fun a b => ∃ s, w.heap[a]? = some s ∧
      s.nextState (val s.action) = some (some b, none)) ps)
    (hlast : w.heap[ps.getLast hne]? = some s) (m : Nat) (hm : ps.length ≤ m) :
    RunGame (fixedExec val) (some (ps.head hne)) (some (ps.getLast hne)) w m
      = .Returned (val s.action, none) w (ps.map some) := by
  cases ps with
  | nil => exact absurd rfl hne
  | cons p rest =>
    apply RunGame_stable _ _ _ w w (rest.length + 1) m _ _ _ (by simpa using hm)
    unfold RunGame
    rw [Function.iterate_succ_apply', List.head_cons,
      RunGame_along_chain val w _ rest p [] hchain hnd rfl,
      RunGame_step_end (fixedExec val) _ w w (val s.action) _
        (by simp [callAction, World.deref, hlast, fixedExec])]
    congr 1
    rw [List.nil_append]
    conv_rhs => rw [← List.dropLast_concat_getLast (List.cons_ne_nil p rest)]
    rw [List.map_append]
    rfl

theorem getLast_not_mem_dropLast {α : Type} (l : List α) (hne : l ≠ []) (hnd : l.Nodup) :
    l.getLast hne ∉ l.dropLast := by
  intro hmem
  have h := List.dropLast_concat_getLast hne
  rw [← h] at hnd
  exact (List.disjoint_of_nodup_append hnd) hmem (List.mem_singleton_self _)

/-- C12 (as stated, refuted): with a first state whose action returns a NaN,
the chain wired with defaults runs to the end and returns 5, while the chain
wired with `TransitionOn` on that NaN returns the error after the first
action; with a first state whose action returns `[]int{1}`, the conditional
wiring panics in `TransitionOn` and the run of the default wiring panics. -/
theorem chain_wirings_differ :
    (∃ w1 w2, wireDefaults [some 0, some 1] nanStates = some w1 ∧
      wireConditional id [some 0, some 1] nanStates = some w2 ∧
      RunGame (fixedExec id) (some 0) (some 1) w1 2
        = .Returned (Value.int 5, none) w1 [some 0, some 1] ∧
      RunGame (fixedExec id) (some 0) (some 1) w2 2
        = .Returned (Value.nil, some errNoTransition) w2 [some 0]) ∧
    wireConditional id [some 0, some 1] sliceStates = none ∧
    (∃ w1, wireDefaults [some 0, some 1] sliceStates = some w1 ∧
      RunGame (fixedExec id) (some 0) (some 1) w1 2 = .Panicked) := by
  refine ⟨⟨_, _, rfl, rfl, ?_, ?_⟩, by decide, ⟨_, rfl, ?_⟩⟩ <;> decide

/-- C12 (amended): for distinct states `s_0 .. s_n` with empty tables and no
defaults, whose actions return fixed values `v_0 .. v_n` with `v_i` hashable
and equal to itself for `i < n`: both wirings succeed, and `RunGame(s_0, s_n)`
returns `(v_n, nil)` in both after executing the actions of `s_0 .. s_n` in
that order. -/
theorem chain_wirings_agree {A E : Type} (val : A → Value) (w0 : World A E) (ps : List Nat)
    (hne : ps ≠ []) (hnd : ps.Nodup) (hfresh : ∀ a ∈ ps, isFresh w0 a = true)
    (hkey : ∀ a ∈ ps.dropLast, returnsKey val w0 a = true) :
    ∃ w1 w2, wireDefaults (ps.map some) w0 = some w1 ∧
      wireConditional val (ps.map some) w0 = some w2 ∧
      ∀ m, ps.length ≤ m →
        RunGame (fixedExec val) (some (ps.head hne)) (some (ps.getLast hne)) w1 m
          = .Returned (returnedBy val w0 (ps.getLast hne), none) w1 (ps.map some) ∧
        RunGame (fixedExec val) (some (ps.head hne)) (some (ps.getLast hne)) w2 m
          = .Returned (returnedBy val w0 (ps.getLast hne), none) w2 (ps.map some) := by
  obtain ⟨w1, hw1, hc1, _, hf1⟩ := wireWith_spec val (fun p q u => Transition p q u)
    (wireDefaults_spec val) ps w0 hnd hfresh hkey
  obtain ⟨w2, hw2, hc2, _, hf2⟩ := wireWith_spec val
    (fun p q (u : World A E) => (u.deref p).bind (fun s => TransitionOn p q (val s.action) u))
    (wireConditional_spec val) ps w0 hnd hfresh hkey
  obtain ⟨s, hs, _, _⟩ := (isFresh_iff w0 _).1 (hfresh _ (List.getLast_mem hne))
  have hnl := getLast_not_mem_dropLast ps hne hnd
  have hret : returnedBy val w0 (ps.getLast hne) = val s.action := by
    simp only [returnedBy, hs]
  refine ⟨w1, w2, hw1, hw2, ?_⟩
  intro m hm
  rw [hret]
  exact ⟨RunGame_chain_returns val w1 ps hne hnd s hc1 (by rw [hf1 _ hnl, hs]) m hm,
    RunGame_chain_returns val w2 ps hne hnd s hc2 (by rw [hf2 _ hnl, hs]) m hm⟩

/-- C12 (amended) on the five states of `TestTransitions` and
`TestTransitionsOn`, chained `1 → 3 → 4 → 2 → 5`. -/
theorem chain_wirings_agree_witness :
    [0, 2, 3, 1, 4] ≠ [] ∧ [0, 2, 3, 1, 4].Nodup ∧
    (∀ a ∈ [0, 2, 3, 1, 4], isFresh fiveStates a = true) ∧
    (∀ a ∈ [0, 2, 3, 1, 4].dropLast, returnsKey Value.int fiveStates a = true) ∧
    ∃ w1 w2, wireDefaults [some 0, some 2, some 3, some 1, some 4] fiveStates = some w1 ∧
      wireConditional Value.int [some 0, some 2, some 3, some 1, some 4] fiveStates = some w2 ∧
      ∀ m, 5 ≤ m →
        RunGame (fixedExec Value.int) (some 0) (some 4) w1 m
          = .Returned (Value.int 5, none) w1 [some 0, some 2, some 3, some 1, some 4] ∧
        RunGame (fixedExec Value.int) (some 0) (some 4) w2 m
          = .Returned (Value.int 5, none) w2 [some 0, some 2, some 3, some 1, some 4] :=
  ⟨by decide, by decide, by decide, by decide,
   chain_wirings_agree Value.int fiveStates [0, 2, 3, 1, 4] (by decide) (by decide)
     (by decide) (by decide)⟩

/-! ## The accumulation test -/

theorem totalGraph_eq : totalGraph = some totalWorld := by decide

theorem pathFrom_succ_back {A E : Type} (exec : Exec A E) (k : Nat) :
    ∀ (p : Ptr) (w : World A E) (c : Ptr × World A E),
      pathFrom exec (k + 1) p w = some c →
      ∃ pk wk v, pathFrom exec k p w = some (pk, wk) ∧
        stepRule exec wk pk = some (v, (c.1, none), c.2) := by
  induction k with
  | zero =>
    intro p w c h
    obtain ⟨v, next, w1, hs, hrest⟩ := pathFrom_succ_some exec w p 0 _ h
    simp only [pathFrom, Option.some.injEq] at hrest
    subst hrest
    exact ⟨p, w, v, rfl, hs⟩
  | succ k ih =>
    intro p w c h
    obtain ⟨v, next, w1, hs, hrest⟩ := pathFrom_succ_some exec w p (k + 1) _ h
    obtain ⟨pk, wk, v2, hpk, hstep⟩ := ih next w1 c hrest
    refine ⟨pk, wk, v2, ?_, hstep⟩
    rw [(pathFrom_succ_of_step exec w w1 p next v k hs).1]
    exact hpk

/-- Along the chain, when every action adds its amount to `"total"`, the world
in which the `k`-th action runs holds the sum of the amounts before it. -/
theorem total_along_path {A E : Type} (exec : Exec A E) (startState : Ptr) (w : World A E)
    (amounts : Nat → Int) (n : Nat)
    (h0 : GetGameValue "total" w = (Value.int 0, true))
    (hadd : ∀ k, k ≤ n → ∀ p wk, pathFrom exec k startState w = some (p, wk) →
      ∃ r wk' t, callAction exec wk p = some (r, wk') ∧
        GetGameValue "total" wk = (Value.int t, true) ∧
        GetGameValue "total" wk' = (Value.int (t + amounts k), true)) :
    ∀ k, k ≤ n → ∀ p wk, pathFrom exec k startState w = some (p, wk) →
      GetGameValue "total" wk = (Value.int ((List.range k).map amounts).sum, true) := by
  intro k
  induction k with
  | zero =>
    intro _ p wk h
    simp only [pathFrom, Option.some.injEq, Prod.mk.injEq] at h
    rw [← h.2]
    simpa using h0
  | succ k ih =>
    intro hk p wk h
    obtain ⟨pk, wk0, v, hpk, hstep⟩ := pathFrom_succ_back exec k startState w _ h
    have hprev := ih (by omega) pk wk0 hpk
    obtain ⟨r, wk', t, hcall, ht, ht'⟩ := hadd k (by omega) pk wk0 hpk
    obtain ⟨hc2, _⟩ := (stepRule_eq_some exec wk0 wk pk v _).1 hstep
    rw [hcall] at hc2
    simp only [Option.some.injEq, Prod.mk.injEq] at hc2
    rw [← hc2.2, ht']
    rw [hprev] at ht
    simp only [Prod.mk.injEq, Value.int.injEq, and_true] at ht
    rw [List.range_succ, List.map_append, List.sum_append, ← ht]
    simp

theorem addsToTotal_iff {A E : Type} (exec : Exec A E) (a : Int) (w : World A E) (p : Ptr) :
    addsToTotal exec a w p = true ↔
      ∃ r w1 t, callAction exec w p = some (r, w1) ∧
        GetGameValue "total" w = (Value.int t, true) ∧
        GetGameValue "total" w1 = (Value.int (t + a), true) := by
  unfold addsToTotal
  constructor
  · intro h
    split at h
    · rename_i r w1 t hc hg
      exact ⟨r, w1, t, hc, hg, of_decide_eq_true h⟩
    · exact absurd h (by simp)
  · rintro ⟨r, w1, t, hc, hg, h⟩
    rw [hc, hg]
    exact decide_eq_true h

theorem path_all {A E : Type} (exec : Exec A E) (k : Nat) (p0 : Ptr) (w : World A E)
    (P : World A E → Ptr → Bool)
    (h : (pathFrom exec k p0 w).all (fun c => P c.2 c.1) = true) :
    ∀ p wk, pathFrom exec k p0 w = some (p, wk) → P wk p = true := by
  intro p wk hp
  rw [hp] at h
  exact h

/-- C13: when the chain from `startState` reaches `endState` for the first time
after `n` resolutions, `"total"` holds 0 at the start, and the action of the
`k`-th state of the chain, run where the chain has got to, adds `amounts k`
to `"total"`: `RunGame` returns with no error after executing `n + 1`
actions and `"total"` then holds the sum of the `n + 1` amounts.  On the
graph with four states adding 1, 2, 3, 4 the run leaves 10 under `"total"`,
and on the graph of `TestGetSetGameValues` it leaves 15. -/
theorem total_is_sum {A E : Type} (exec : Exec A E) (startState endState : Ptr)
    (w : World A E) (amounts : Nat → Int) (n : Nat)
    (h0 : GetGameValue "total" w = (Value.int 0, true))
    (hpath : (pathFrom exec n startState w).map Prod.fst = some endState)
    (hfirst : ∀ k, k < n → ∀ p wk, pathFrom exec k startState w = some (p, wk) → p ≠ endState)
    (hadd : ∀ k, k ≤ n → ∀ p wk, pathFrom exec k startState w = some (p, wk) →
      addsToTotal exec (amounts k) wk p = true) :
    (∃ ret w1 executed,
      (∀ m, n + 1 ≤ m →
        RunGame exec startState endState w m = .Returned (ret, none) w1 executed) ∧
      executed.length = n + 1 ∧
      GetGameValue "total" w1 = (Value.int ((List.range (n + 1)).map amounts).sum, true)) ∧
    (fourGraph.bind (fun g => (RunGame totalExec (some 0) (some 3) g 4).world?)).map
      (GetGameValue "total") = some (Value.int 10, true) ∧
    (totalGraph.bind (fun g => (RunGame totalExec (some 0) (some 4) g 5).world?)).map
      (GetGameValue "total") = some (Value.int 15, true) := by
  refine ⟨?_, by decide, by decide⟩
  obtain ⟨c, hc, hce⟩ := Option.map_eq_some'.1 hpath
  obtain ⟨pn, wn⟩ := c
  simp only at hce
  subst hce
  have hadd' : ∀ k, k ≤ n → ∀ p wk, pathFrom exec k startState w = some (p, wk) →
      ∃ r wk' t, callAction exec wk p = some (r, wk') ∧
        GetGameValue "total" wk = (Value.int t, true) ∧
        GetGameValue "total" wk' = (Value.int (t + amounts k), true) :=
    fun k hk p wk h => (addsToTotal_iff exec _ wk p).1 (hadd k hk p wk h)
  have hsum := total_along_path exec startState w amounts n h0 hadd' n (Nat.le_refl n) pn wn hc
  obtain ⟨r, w1, t, hcall, ht, ht'⟩ := hadd' n (Nat.le_refl n) pn wn hc
  refine ⟨r, w1, pathStates exec (n + 1) startState w, ?_,
    (pathStates_spec exec n startState w _ hc).1, ?_⟩
  · intro m hm
    exact RunGame_ends_at exec startState pn w n wn w1 r hc hfirst hcall m hm
  · rw [hsum] at ht
    simp only [Prod.mk.injEq, Value.int.injEq, and_true] at ht
    rw [ht', List.range_succ, List.map_append, List.sum_append, ← ht]
    simp

/-- C13 on the graph of `TestGetSetGameValues`, whose chain adds 1, 3, 4, 2, 5. -/
theorem total_is_sum_witness :
    GetGameValue "total" totalWorld = (Value.int 0, true) ∧
    (pathFrom totalExec 4 (some 0) totalWorld).map Prod.fst = some (some 4) ∧
    (∀ k, k < 4 → ∀ p wk, pathFrom totalExec k (some 0) totalWorld = some (p, wk) →
      p ≠ some 4) ∧
    (∀ k, k ≤ 4 → ∀ p wk, pathFrom totalExec k (some 0) totalWorld = some (p, wk) →
      addsToTotal totalExec (testAmounts k) wk p = true) ∧
    ∃ ret w1 executed,
      (∀ m, 4 + 1 ≤ m →
        RunGame totalExec (some 0) (some 4) totalWorld m = .Returned (ret, none) w1 executed) ∧
      executed.length = 4 + 1 ∧
      GetGameValue "total" w1
        = (Value.int ((List.range (4 + 1)).map testAmounts).sum, true) :=
  have hfirst : ∀ k, k < 4 → ∀ p wk, pathFrom totalExec k (some 0) totalWorld = some (p, wk) →
      p ≠ some 4 := fun k hk p wk h =>
    of_decide_eq_true (path_all totalExec k (some 0) totalWorld
      (fun _ q => decide (q ≠ some 4))
      ((by decide : ∀ k, k < 4 → (pathFrom totalExec k (some 0) totalWorld).all
        (fun c => (fun (_ : World (String × Int) Unit) (q : Ptr) => decide (q ≠ some 4))
          c.2 c.1) = true) k hk) p wk h)
  have hadd : ∀ k, k ≤ 4 → ∀ p wk, pathFrom totalExec k (some 0) totalWorld = some (p, wk) →
      addsToTotal totalExec (testAmounts k) wk p = true := fun k hk p wk h =>
    path_all totalExec k (some 0) totalWorld (addsToTotal totalExec (testAmounts k))
      ((by decide : ∀ k, k ≤ 4 → (pathFrom totalExec k (some 0) totalWorld).all
        (fun c => addsToTotal totalExec (testAmounts k) c.2 c.1) = true) k hk) p wk h
  ⟨by decide, by decide, hfirst, hadd,
   (total_is_sum totalExec (some 0) (some 4) totalWorld testAmounts 4 (by decide) (by decide)
     hfirst hadd).1⟩

/-! ## Graphs that differ at the end state only -/

theorem agreeOffEnd_refl {A E : Type} (endState : Ptr) (w : World A E) :
    agreeOffEnd endState w w :=
  ⟨rfl, rfl, fun _ => ⟨fun _ => rfl, rfl⟩⟩

theorem agreeOffEnd_store {A E : Type} (w : World A E) (a : Nat) (s s' : GameState A)
    (hs : w.heap[a]? = some s) (hid : s'.id = s.id) (hact : s'.action = s.action) :
    agreeOffEnd (some a) w (w.store a s') := by
  refine ⟨rfl, rfl, fun p => ⟨fun hp => (deref_store_other w a s' p hp).symm, ?_⟩⟩
  by_cases hp : p = some a
  · subst hp
    rw [deref_store_self w a s' (lt_length_of_getElem? _ _ _ hs)]
    simp [World.deref, hs, hid, hact]
  · rw [deref_store_other w a s' p hp]

theorem agreeOffEnd_Transition {A E : Type} (w w' : World A E) (endState q : Ptr)
    (h : Transition endState q w = some w') : agreeOffEnd endState w w' := by
  cases endState with
  | none => simp [Transition] at h
  | some a =>
    cases hs : w.heap[a]? with
    | none => simp [Transition, World.deref, hs] at h
    | some s =>
      rw [Transition_some w a q s hs] at h
      obtain rfl := Option.some.inj h
      exact agreeOffEnd_store w a s _ hs rfl rfl

theorem agreeOffEnd_TransitionOn {A E : Type} (w w' : World A E) (endState q : Ptr)
    (k : Value) (h : TransitionOn endState q k w = some w') : agreeOffEnd endState w w' := by
  cases endState with
  | none => simp [TransitionOn] at h
  | some a =>
    cases hs : w.heap[a]? with
    | none => simp [TransitionOn, World.deref, hs] at h
    | some s =>
      by_cases hk : k.hashable = true
      · rw [TransitionOn_some w a q k s hs hk] at h
        obtain rfl := Option.some.inj h
        exact agreeOffEnd_store w a s _ hs rfl rfl
      · simp [TransitionOn, World.deref, hs, GameState.TransitionOn, hk] at h

theorem callAction_agree {A E : Type} (exec : Exec A E) (endState p : Ptr) (w w' : World A E)
    (hexec : respectsEnd exec endState) (h : agreeOffEnd endState w w') :
    (callAction exec w p = none ∧ callAction exec w' p = none) ∨
    ∃ v u u', callAction exec w p = some (v, u) ∧ callAction exec w' p = some (v, u') ∧
      agreeOffEnd endState u u' := by
  have hmap := (h.2.2 p).2
  unfold callAction
  cases hd : w.deref p with
  | none =>
    rw [hd] at hmap
    cases hd' : w'.deref p with
    | none => exact Or.inl ⟨rfl, rfl⟩
    | some s' => rw [hd'] at hmap; simp at hmap
  | some s =>
    rw [hd] at hmap
    cases hd' : w'.deref p with
    | none => rw [hd'] at hmap; simp at hmap
    | some s' =>
      rw [hd'] at hmap
      simp only [Option.map_some', Option.some.injEq, Prod.mk.injEq] at hmap
      simp only [Option.some_bind, ← hmap.2]
      exact hexec s.action w w' h

theorem nextState_agree {A E : Type} (endState p : Ptr) (w w' : World A E) (v : Value)
    (hp : p ≠ endState) (h : agreeOffEnd endState w w') :
    nextState w p v = nextState w' p v := by
  unfold nextState
  rw [(h.2.2 p).1 hp]

theorem RunGame_step_agree {A E : Type} (exec : Exec A E) (endState : Ptr)
    (hexec : respectsEnd exec endState) (s s' : RunState A E (Value × GoError))
    (h : RunState.agree endState s s') :
    RunState.agree endState (RunGame.step exec endState s) (RunGame.step exec endState s') := by
  cases s with
  | Panicked =>
    cases s' with
    | Panicked => exact h
    | Running _ _ _ => exact h.elim
    | Returned _ _ _ => exact h.elim
  | Returned r w ex =>
    cases s' with
    | Returned _ _ _ => exact h
    | Running _ _ _ => exact h.elim
    | Panicked => exact h.elim
  | Running p w ex =>
    cases s' with
    | Panicked => exact h.elim
    | Returned _ _ _ => exact h.elim
    | Running p' w' ex' =>
      obtain ⟨rfl, rfl, hw⟩ := h
      rcases callAction_agree exec endState p w w' hexec hw with ⟨h1, h2⟩ | ⟨v, u, u', h1, h2, hu⟩
      · by_cases hp : p = endState
        · subst hp
          simp [RunGame.step, h1, h2, RunState.agree]
        · simp [RunGame.step, hp, h1, h2, RunState.agree]
      · by_cases hp : p = endState
        · subst hp
          simp only [RunGame.step, ne_eq, not_true_eq_false, ↓reduceIte, h1, h2]
          exact ⟨rfl, rfl, hu⟩
        · have hn := nextState_agree endState p u u' v hp hu
          simp only [RunGame.step, ne_eq, hp, not_false_eq_true, ↓reduceIte, h1, h2, ← hn]
          cases hr : nextState u p v with
          | none => trivial
          | some r =>
            obtain ⟨nx, err⟩ := r
            cases err with
            | none => exact ⟨rfl, rfl, hu⟩
            | some e => exact ⟨rfl, rfl, hu⟩

theorem agree_observables {A E R : Type} (endState : Ptr) (s s' : RunState A E R)
    (h : RunState.agree endState s s') :
    s.result? = s'.result? ∧ s.executed = s'.executed ∧ s.current? = s'.current? := by
  cases s with
  | Panicked =>
    cases s' with
    | Panicked => exact ⟨rfl, rfl, rfl⟩
    | Running _ _ _ => exact h.elim
    | Returned _ _ _ => exact h.elim
  | Returned r w ex =>
    cases s' with
    | Returned _ _ _ =>
      obtain ⟨rfl, rfl, _⟩ := h
      exact ⟨rfl, rfl, rfl⟩
    | Running _ _ _ => exact h.elim
    | Panicked => exact h.elim
  | Running p w ex =>
    cases s' with
    | Running _ _ _ =>
      obtain ⟨rfl, rfl, _⟩ := h
      exact ⟨rfl, rfl, rfl⟩
    | Returned _ _ _ => exact h.elim
    | Panicked => exact h.elim

/-- C14 (as stated, refuted): `g'` is `g` after one `Transition` call on the
end state (state 1), so the two graphs differ in the default transition of
the end state only; the action of state 0 runs `RunGameToEnd` on the end
state.  On `g` the run from state 0 to state 1 returns `(7, nil)` after the
actions of states 0 and 1; on `g'` it returns the error after the actions
of states 0 and 2. -/
theorem end_transitions_observed :
    ∃ g g', probeGraph = some g ∧ Transition (some 1) (some 2) g = some g' ∧
      agreeOffEnd (some 1) g g' ∧
      RunGame probeExec (some 0) (some 1) g 2
        = .Returned (Value.int 7, none) g [some 0, some 1] ∧
      RunGame probeExec (some 0) (some 1) g' 2
        = .Returned (Value.nil, some errNoTransition) g' [some 0, some 2] := by
  refine ⟨_, _, rfl, rfl, agreeOffEnd_Transition _ _ (some 1) (some 2) rfl, ?_, ?_⟩ <;> decide

/-- C14 (amended): for two graphs that differ only in the transition table and
the default transition of `endState`, and actions that behave alike on such
graphs (as actions do that use the value store only), `RunGame(startState,
endState)` is after every number of passes in the same control state in
both, with the same executed actions, the same result and the same error;
this for every `startState`, `endState` itself included, and whatever the
transitions of `endState` are. -/
theorem RunGame_ignores_end_transitions {A E : Type} (exec : Exec A E)
    (startState endState : Ptr) (w w' : World A E) (n : Nat)
    (hagree : agreeOffEnd endState w w') (hexec : respectsEnd exec endState) :
    RunState.agree endState (RunGame exec startState endState w n)
      (RunGame exec startState endState w' n) ∧
    (RunGame exec startState endState w n).result?
      = (RunGame exec startState endState w' n).result? ∧
    (RunGame exec startState endState w n).executed
      = (RunGame exec startState endState w' n).executed ∧
    (RunGame exec startState endState w n).current?
      = (RunGame exec startState endState w' n).current? := by
  have h : RunState.agree endState (RunGame exec startState endState w n)
      (RunGame exec startState endState w' n) := by
    induction n with
    | zero => exact ⟨rfl, rfl, hagree⟩
    | succ n ih =>
      unfold RunGame at ih ⊢
      rw [Function.iterate_succ_apply', Function.iterate_succ_apply']
      exact RunGame_step_agree exec endState hexec _ _ ih
  exact ⟨h, agree_observables endState _ _ h⟩

/-- C14 (amended) on the graph of `TestTransitions` and the same graph with
transitions added on its end state, state 5. -/
theorem RunGame_ignores_end_transitions_witness :
    agreeOffEnd (some 4) testWorld testWorldLooped ∧
    respectsEnd (constExec : Exec Int Unit) (some 4) ∧
    (RunGame constExec (some 0) (some 4) testWorld 5).result?
      = (RunGame constExec (some 0) (some 4) testWorldLooped 5).result? ∧
    (RunGame constExec (some 0) (some 4) testWorld 5).executed
      = (RunGame constExec (some 0) (some 4) testWorldLooped 5).executed :=
  have hagree : agreeOffEnd (some 4) testWorld testWorldLooped :=
    agreeOffEnd_store testWorld 4
      { id := 4, action := 5, transitions := [], defaultTransition := none } _
      (by decide) rfl rfl
  have hexec : respectsEnd (constExec : Exec Int Unit) (some 4) :=
    fun a w w' h => Or.inr ⟨Value.int a, w, w', rfl, rfl, h⟩
  have h := RunGame_ignores_end_transitions constExec (some 0) (some 4) testWorld
    testWorldLooped 5 hagree hexec
  ⟨hagree, hexec, h.2.1, h.2.2.1⟩

/-! ## Targeted and untargeted runs -/

/-- A state of the chain whose resolution returns the error makes
`RunGameToEnd` return the value its action produced. -/
theorem RunGameToEnd_returns_at {A E : Type} (exec : Exec A E) (startState : Ptr)
    (w : World A E) (k : Nat) (pk nxt : Ptr) (wk w1 : World A E) (v : Value) (e : String)
    (hpath : pathFrom exec k startState w = some (pk, wk))
    (hact : callAction exec wk pk = some (v, w1))
    (hfail : nextState w1 pk v = some (nxt, some e)) (m : Nat) (hm : k + 1 ≤ m) :
    RunGameToEnd exec startState w m
      = .Returned v w1 (pathStates exec (k + 1) startState w) := by
  obtain ⟨a, rfl⟩ : ∃ a, m = a + (k + 1) := ⟨m - (k + 1), by omega⟩
  have hk := RunGameToEnd_along_path exec k startState w [] pk wk hpath
  unfold RunGameToEnd
  rw [Function.iterate_add_apply, Function.iterate_succ_apply', hk,
    RunGameToEnd_step_fail exec pk nxt wk w1 v e _ hact hfail,
    RunGameToEnd_iterate_returned, pathStates_succ exec k startState w pk wk hpath]
  rfl

/-- C15: when `RunGame(startState, endState)` has returned an error, leaving
the world `w1` and the executed actions `executed`, `RunGameToEnd(startState)`
from the same world returns, after the same number of passes and from then
on, with the same executed actions and the same world; its result is the
value produced by the action of the state whose resolution gave `RunGame`
its error. -/
theorem RunGameToEnd_of_RunGame_error {A E : Type} (exec : Exec A E)
    (startState endState : Ptr) (w w1 : World A E) (n : Nat) (result : Value) (e : String)
    (executed : List Ptr)
    (hrun : RunGame exec startState endState w n = .Returned (result, some e) w1 executed) :
    ∃ v k p wk nxt,
      (∀ m, n ≤ m → RunGameToEnd exec startState w m = .Returned v w1 executed) ∧
      pathFrom exec k startState w = some (p, wk) ∧
      callAction exec wk p = some (v, w1) ∧
      nextState w1 p v = some (nxt, some e) ∧
      executed.length = k + 1 ∧ executed[k]? = some p := by
  obtain ⟨k, pk, wk, v, nxt, hk, hpath, _, hact, hfail, _, hex⟩ :=
    RunGame_error_inv exec endState n startState w [] result e w1 executed hrun
  rw [List.nil_append] at hex
  obtain ⟨hlen, hget⟩ := pathStates_spec exec k startState w _ hpath
  refine ⟨v, k, pk, wk, nxt, ?_, hpath, hact, hfail, hex ▸ hlen, ?_⟩
  · intro m hm
    rw [hex]
    exact RunGameToEnd_returns_at exec startState w k pk nxt wk w1 v e hpath hact hfail m
      (by omega)
  · rw [hex, hget k (Nat.le_refl k), hpath]
    rfl

/-- C15 on the graph of `TestTransitions`, run from state 5 towards state 1:
state 5 has no transition. -/
theorem RunGameToEnd_of_RunGame_error_witness :
    RunGame constExec (some 4) (some 0) testWorld 1
      = .Returned (Value.nil, some errNoTransition) testWorld [some 4] ∧
    ∃ v k p wk nxt,
      (∀ m, 1 ≤ m → RunGameToEnd constExec (some 4) testWorld m
        = .Returned v testWorld [some 4]) ∧
      pathFrom constExec k (some 4) testWorld = some (p, wk) ∧
      callAction constExec wk p = some (v, testWorld) ∧
      nextState testWorld p v = some (nxt, some errNoTransition) ∧
      [(some 4 : Ptr)].length = k + 1 ∧ [(some 4 : Ptr)][k]? = some p :=
  ⟨by decide,
   RunGameToEnd_of_RunGame_error constExec (some 4) (some 0) testWorld testWorld 1 Value.nil
     errNoTransition [some 4] (by decide)⟩

/-! ## Runs that never stop -/

theorem loopGraph_eq : loopGraph = some loopWorld := by decide

theorem pathStates_length {A E : Type} (exec : Exec A E) (k : Nat) (p : Ptr) (w : World A E)
    (c : Ptr × World A E) (h : pathFrom exec k p w = some c) :
    (pathStates exec k p w).length = k := by
  cases k with
  | zero => rfl
  | succ k =>
    obtain ⟨q, wq, hq⟩ := pathFrom_le exec (k + 1) p w c k h (Nat.le_succ k)
    exact (pathStates_spec exec k p w _ hq).1

theorem loop_path (k : Nat) :
    pathFrom constExec k (some 0) loopWorld = some (some 0, loopWorld) := by
  induction k with
  | zero => rfl
  | succ k ih =>
    rw [(pathFrom_succ_of_step constExec loopWorld loopWorld (some 0) (some 0) (Value.int 1) k
      (by decide)).1]
    exact ih

/-- C16: when the chain from `startState` goes on for ever (every action
returns and every resolution succeeds), `RunGameToEnd` is, after every
number `n` of passes, still at the head of its loop, with `n` actions
executed and the `n`-th state of the chain as current state; and so is
`RunGame` when `endState` is not a state of the chain. -/
theorem runs_forever {A E : Type} (exec : Exec A E) (startState endState : Ptr)
    (w : World A E) (hpath : ∀ k, ∃ c, pathFrom exec k startState w = some c) :
    (∀ n, ∃ p wn ex, RunGameToEnd exec startState w n = .Running p wn ex ∧ ex.length = n ∧
      pathFrom exec n startState w = some (p, wn)) ∧
    ((∀ k p wk, pathFrom exec k startState w = some (p, wk) → p ≠ endState) →
      ∀ n, ∃ p wn ex, RunGame exec startState endState w n = .Running p wn ex ∧
        ex.length = n ∧ pathFrom exec n startState w = some (p, wn)) := by
  constructor
  · intro n
    obtain ⟨⟨p, wn⟩, hc⟩ := hpath n
    refine ⟨p, wn, [] ++ pathStates exec n startState w,
      RunGameToEnd_along_path exec n startState w [] p wn hc, ?_, hc⟩
    rw [List.nil_append]
    exact pathStates_length exec n startState w _ hc
  · intro hno n
    obtain ⟨⟨p, wn⟩, hc⟩ := hpath n
    refine ⟨p, wn, [] ++ pathStates exec n startState w,
      RunGame_along_path exec endState n startState w [] p wn hc
        (fun j _ q wj hq => hno j q wj hq), ?_, hc⟩
    rw [List.nil_append]
    exact pathStates_length exec n startState w _ hc

/-- C16 on `loopWorld`, whose only state has itself as default transition;
the end state given to `RunGame` is another pointer. -/
theorem runs_forever_witness :
    (∀ k, ∃ c, pathFrom constExec k (some 0) loopWorld = some c) ∧
    (∀ n, ∃ p wn ex, RunGameToEnd constExec (some 0) loopWorld n = .Running p wn ex ∧
      ex.length = n ∧ pathFrom constExec n (some 0) loopWorld = some (p, wn)) ∧
    (∀ n, ∃ p wn ex, RunGame constExec (some 0) (some 1) loopWorld n = .Running p wn ex ∧
      ex.length = n ∧ pathFrom constExec n (some 0) loopWorld = some (p, wn)) :=
  have hpath : ∀ k, ∃ c, pathFrom constExec k (some 0) loopWorld = some c :=
    fun k => ⟨_, loop_path k⟩
  have h := runs_forever constExec (some 0) (some 1) loopWorld hpath
  ⟨hpath, h.1, h.2 (fun k p wk hk => by
    rw [loop_path k] at hk
    cases hk
    decide)⟩

/-! ## What a run writes -/

theorem callAction_preserves {A E : Type} (exec : Exec A E) (P : World A E → Prop)
    (hP : ∀ a u v u', P u → exec a u = some (v, u') → P u')
    (u u' : World A E) (p : Ptr) (v : Value) (hu : P u)
    (h : callAction exec u p = some (v, u')) : P u' := by
  unfold callAction at h
  cases hd : u.deref p with
  | none => simp [hd] at h
  | some s =>
    rw [hd, Option.some_bind] at h
    exact hP s.action u v u' hu h

theorem RunGame_step_preserves {A E : Type} (exec : Exec A E) (endState : Ptr)
    (P : World A E → Prop) (hP : ∀ a u v u', P u → exec a u = some (v, u') → P u')
    (s : RunState A E (Value × GoError)) (hs : ∀ u, s.world? = some u → P u) :
    ∀ u', (RunGame.step exec endState s).world? = some u' → P u' := by
  intro u' h
  cases s with
  | Panicked => exact hs u' h
  | Returned r w ex => exact hs u' h
  | Running p w ex =>
    have hw : P w := hs w rfl
    cases hc : callAction exec w p with
    | none =>
      by_cases hp : p = endState
      · subst hp
        simp [RunGame.step, hc, RunState.world?] at h
      · simp [RunGame.step, hp, hc, RunState.world?] at h
    | some c =>
      obtain ⟨v, w1⟩ := c
      have hw1 : P w1 := callAction_preserves exec P hP w w1 p v hw hc
      by_cases hp : p = endState
      · subst hp
        simp only [RunGame.step, ne_eq, not_true_eq_false, ↓reduceIte, hc, RunState.world?,
          Option.some.injEq] at h
        exact h ▸ hw1
      · simp only [RunGame.step, ne_eq, hp, not_false_eq_true, ↓reduceIte, hc] at h
        cases hn : nextState w1 p v with
        | none => simp [hn, RunState.world?] at h
        | some r =>
          obtain ⟨nx, err⟩ := r
          rw [hn] at h
          cases err with
          | none =>
            simp only [ne_eq, not_true_eq_false, ↓reduceIte, RunState.world?,
              Option.some.injEq] at h
            exact h ▸ hw1
          | some e =>
            simp only [ne_eq, reduceCtorEq, not_false_eq_true, ↓reduceIte, RunState.world?,
              Option.some.injEq] at h
            exact h ▸ hw1

theorem RunGameToEnd_step_preserves {A E : Type} (exec : Exec A E)
    (P : World A E → Prop) (hP : ∀ a u v u', P u → exec a u = some (v, u') → P u')
    (s : RunState A E Value) (hs : ∀ u, s.world? = some u → P u) :
    ∀ u', (RunGameToEnd.step exec s).world? = some u' → P u' := by
  intro u' h
  cases s with
  | Panicked => exact hs u' h
  | Returned r w ex => exact hs u' h
  | Running p w ex =>
    have hw : P w := hs w rfl
    cases hc : callAction exec w p with
    | none => simp [RunGameToEnd.step, hc, RunState.world?] at h
    | some c =>
      obtain ⟨v, w1⟩ := c
      have hw1 : P w1 := callAction_preserves exec P hP w w1 p v hw hc
      simp only [RunGameToEnd.step, hc] at h
      cases hn : nextState w1 p v with
      | none => simp [hn, RunState.world?] at h
      | some r =>
        obtain ⟨nx, err⟩ := r
        rw [hn] at h
        cases err with
        | none =>
          simp only [ne_eq, not_true_eq_false, ↓reduceIte, RunState.world?,
            Option.some.injEq] at h
          exact h ▸ hw1
        | some e =>
          simp only [ne_eq, reduceCtorEq, not_false_eq_true, ↓reduceIte, RunState.world?,
            Option.some.injEq] at h
          exact h ▸ hw1

/-- Every property of worlds that the actions preserve holds after any number
of passes of either loop: the loops write nothing themselves. -/
theorem run_preserves {A E : Type} (exec : Exec A E) (startState endState : Ptr)
    (w : World A E) (P : World A E → Prop)
    (hP : ∀ a u v u', P u → exec a u = some (v, u') → P u') (hw : P w) (n : Nat) :
    (∀ wn, (RunGame exec startState endState w n).world? = some wn → P wn) ∧
    (∀ wn, (RunGameToEnd exec startState w n).world? = some wn → P wn) := by
  induction n with
  | zero =>
    constructor <;>
    · intro wn h
      simp only [RunGame, RunGameToEnd, Function.iterate_zero, id_eq, RunState.world?,
        Option.some.injEq] at h
      exact h ▸ hw
  | succ n ih =>
    constructor
    · unfold RunGame at ih ⊢
      rw [Function.iterate_succ_apply']
      exact RunGame_step_preserves exec endState P hP _ ih.1
    · unfold RunGameToEnd at ih ⊢
      rw [Function.iterate_succ_apply']
      exact RunGameToEnd_step_preserves exec P hP _ ih.2

/-- C17: when no action changes the heap of states (their tables, defaults,
identities and actions), the identity counter or the identity-to-state map,
these are after every number of passes of `RunGame` and of `RunGameToEnd`
what they were before the run.  The loops write nothing of their own: any
property of worlds kept by every action call (an unchanged value store, for
one) holds after every number of passes. -/
theorem run_leaves_graph {A E : Type} (exec : Exec A E) (startState endState : Ptr)
    (w : World A E) (n : Nat)
    (hexec : ∀ a u v u', exec a u = some (v, u') →
      u'.heap = u.heap ∧ u'.gameMap.nextStateID = u.gameMap.nextStateID ∧
      u'.gameMap.states = u.gameMap.states) :
    (∀ wn, (RunGame exec startState endState w n).world? = some wn →
      wn.heap = w.heap ∧ wn.gameMap.nextStateID = w.gameMap.nextStateID ∧
      wn.gameMap.states = w.gameMap.states) ∧
    (∀ wn, (RunGameToEnd exec startState w n).world? = some wn →
      wn.heap = w.heap ∧ wn.gameMap.nextStateID = w.gameMap.nextStateID ∧
      wn.gameMap.states = w.gameMap.states) ∧
    (∀ P : World A E → Prop, (∀ a u v u', P u → exec a u = some (v, u') → P u') → P w →
      (∀ wn, (RunGame exec startState endState w n).world? = some wn → P wn) ∧
      (∀ wn, (RunGameToEnd exec startState w n).world? = some wn → P wn)) := by
  have h := run_preserves exec startState endState w
    (fun u => u.heap = w.heap ∧ u.gameMap.nextStateID = w.gameMap.nextStateID ∧
      u.gameMap.states = w.gameMap.states)
    (fun a u v u' hu he => by
      obtain ⟨h1, h2, h3⟩ := hexec a u v u' he
      exact ⟨h1.trans hu.1, h2.trans hu.2.1, h3.trans hu.2.2⟩)
    ⟨rfl, rfl, rfl⟩ n
  exact ⟨h.1, h.2, fun P hP hw => run_preserves exec startState endState w P hP hw n⟩

theorem totalExec_graph {E : Type} (a : String × Int) (u u' : World (String × Int) E)
    (v : Value) (h : totalExec a u = some (v, u')) :
    u'.heap = u.heap ∧ u'.gameMap.nextStateID = u.gameMap.nextStateID ∧
    u'.gameMap.states = u.gameMap.states := by
  unfold totalExec at h
  simp only at h
  split at h
  · simp only [Option.some.injEq, Prod.mk.injEq] at h
    rw [← h.2]
    exact ⟨rfl, rfl, rfl⟩
  · exact Option.noConfusion h

/-- C17 on the run of `TestGetSetGameValues`, whose actions write the value
store and leave the graph alone. -/
theorem run_leaves_graph_witness :
    (∀ a u v u', (totalExec : Exec (String × Int) Unit) a u = some (v, u') →
      u'.heap = u.heap ∧ u'.gameMap.nextStateID = u.gameMap.nextStateID ∧
      u'.gameMap.states = u.gameMap.states) ∧
    ((RunGame totalExec (some 0) (some 4) totalWorld 5).world?).isSome = true ∧
    (∀ wn, (RunGame totalExec (some 0) (some 4) totalWorld 5).world? = some wn →
      wn.heap = totalWorld.heap ∧ wn.gameMap.nextStateID = totalWorld.gameMap.nextStateID ∧
      wn.gameMap.states = totalWorld.gameMap.states) :=
  ⟨fun a u v u' h => totalExec_graph a u u' v h,
   by decide,
   (run_leaves_graph totalExec (some 0) (some 4) totalWorld 5
     (fun a u v u' h => totalExec_graph a u u' v h)).1⟩

/-! ## Frames of the graph-building calls -/

theorem mapGet_keyEq_none_of_not_isKey {V : Type} (m : List (Value × V)) (v : Value)
    (hv : v.isKey = false) : mapGet Value.keyEq m v = none := by
  cases h : mapGet Value.keyEq m v with
  | none => rfl
  | some d =>
    rw [mapGet_keyEq_some m v d h] at hv
    exact Bool.noConfusion hv

theorem TransitionOn_frame {A : Type} (s s' : GameState A) (d : Ptr) (k v : Value)
    (h : s.TransitionOn d k = some s') (hv : Value.keyEq k v = false) :
    s'.nextState v = s.nextState v ∧
    mapGet Value.keyEq s'.transitions v = mapGet Value.keyEq s.transitions v ∧
    s'.defaultTransition = s.defaultTransition ∧ s'.id = s.id ∧ s'.action = s.action := by
  by_cases hk : k.hashable = true
  · rw [TransitionOn_of_hashable s d k hk] at h
    obtain rfl := Option.some.inj h
    have hget : mapGet Value.keyEq (mapSet Value.keyEq s.transitions k d) v
        = mapGet Value.keyEq s.transitions v := by
      by_cases hvk : v = k
      · subst hvk
        rw [mapGet_keyEq_none_of_not_isKey _ v hv, mapGet_keyEq_none_of_not_isKey _ v hv]
      · exact mapGet_mapSet_other Value.keyEq keyEq_eq s.transitions k v d hvk
    refine ⟨?_, hget, rfl, rfl, rfl⟩
    simp only [GameState.nextState, hget]
  · simp [GameState.TransitionOn, hk] at h

theorem Transition_frame {A : Type} (s : GameState A) (d dv : Ptr) (v : Value)
    (h : mapGet Value.keyEq s.transitions v = some dv) :
    (s.Transition d).nextState v = s.nextState v ∧
    (s.Transition d).transitions = s.transitions ∧ (s.Transition d).id = s.id ∧
    (s.Transition d).action = s.action := by
  have hv : v.hashable = true := ((isKey_iff v).1 (mapGet_keyEq_some _ _ _ h)).1
  refine ⟨?_, rfl, rfl, rfl⟩
  rw [nextState_of_hashable _ v hv, nextState_of_hashable _ v hv]
  simp [GameState.Transition, h]

theorem Transition_world_frame {A E : Type} (w w' : World A E) (p d q : Ptr)
    (h : Transition p d w = some w') (hq : q ≠ p) :
    w'.deref q = w.deref q ∧ (∀ x, nextState w' q x = nextState w q x) ∧
    w'.gameMap = w.gameMap ∧ w'.env = w.env := by
  cases p with
  | none => simp [Transition] at h
  | some a =>
    cases hs : w.heap[a]? with
    | none => simp [Transition, World.deref, hs] at h
    | some s =>
      rw [Transition_some w a d s hs] at h
      obtain rfl := Option.some.inj h
      have hd := deref_store_other w a (s.Transition d) q hq
      exact ⟨hd, fun x => by simp only [nextState, hd], rfl, rfl⟩

theorem TransitionOn_world_frame {A E : Type} (w w' : World A E) (p d q : Ptr) (k : Value)
    (h : TransitionOn p d k w = some w') (hq : q ≠ p) :
    w'.deref q = w.deref q ∧ (∀ x, nextState w' q x = nextState w q x) ∧
    w'.gameMap = w.gameMap ∧ w'.env = w.env := by
  cases p with
  | none => simp [TransitionOn] at h
  | some a =>
    cases hs : w.heap[a]? with
    | none => simp [TransitionOn, World.deref, hs] at h
    | some s =>
      by_cases hk : k.hashable = true
      · rw [TransitionOn_some w a d k s hs hk] at h
        obtain rfl := Option.some.inj h
        have hd := deref_store_other w a
          { s with transitions := mapSet Value.keyEq s.transitions k d } q hq
        exact ⟨hd, fun x => by simp only [nextState, hd], rfl, rfl⟩
      · simp [TransitionOn, World.deref, hs, GameState.TransitionOn, hk] at h

theorem Transition_world_self {A E : Type} (w w' : World A E) (p d : Ptr)
    (h : Transition p d w = some w') :
    w'.deref p = (w.deref p).map (fun s => s.Transition d) := by
  cases p with
  | none => simp [Transition] at h
  | some a =>
    cases hs : w.heap[a]? with
    | none => simp [Transition, World.deref, hs] at h
    | some s =>
      rw [Transition_some w a d s hs] at h
      obtain rfl := Option.some.inj h
      rw [deref_store_self w a _ (lt_length_of_getElem? _ _ _ hs)]
      simp [World.deref, hs]

theorem TransitionOn_world_self {A E : Type} (w w' : World A E) (p d : Ptr) (k : Value)
    (h : TransitionOn p d k w = some w') :
    w'.deref p = (w.deref p).bind (fun s => s.TransitionOn d k) := by
  cases p with
  | none => simp [TransitionOn] at h
  | some a =>
    cases hs : w.heap[a]? with
    | none => simp [TransitionOn, World.deref, hs] at h
    | some s =>
      by_cases hk : k.hashable = true
      · rw [TransitionOn_some w a d k s hs hk] at h
        obtain rfl := Option.some.inj h
        rw [deref_store_self w a _ (lt_length_of_getElem? _ _ _ hs)]
        simp [World.deref, hs, GameState.TransitionOn, hk]
      · simp [TransitionOn, World.deref, hs, GameState.TransitionOn, hk] at h

/-- C18: for every state `s` (its table empty or not), `s.TransitionOn(d, k)`
returns when `k` is hashable, and when it returns it leaves the default, the
identity and the action of `s`, and for every `v` that Go finds different
from `k` (`k == v` false) the table entry of `v` and `nextState(s, v)`;
`s.Transition(d)` sets the default to `d` and leaves the table, the identity
and the action, so `nextState(s, u)` is unchanged for every key `u` of the
table.  Through pointers: each call rewrites the state of its receiver `p`
as just said, every other pointer `q` reads the same state and resolves as
before, and `gameMap` (identity counter, registry, value store) and the rest
of the world are unchanged. -/
theorem transition_frames {A B E : Type} :
    (∀ (s : GameState B) (d : Ptr) (k : Value), k.hashable = true →
      ∃ s', s.TransitionOn d k = some s') ∧
    (∀ (s s' : GameState B) (d : Ptr) (k : Value), s.TransitionOn d k = some s' →
      s'.defaultTransition = s.defaultTransition ∧ s'.id = s.id ∧ s'.action = s.action ∧
      ∀ v : Value, Value.keyEq k v = false →
        s'.nextState v = s.nextState v ∧
        mapGet Value.keyEq s'.transitions v = mapGet Value.keyEq s.transitions v) ∧
    (∀ (s : GameState B) (d : Ptr),
      (s.Transition d).defaultTransition = d ∧ (s.Transition d).transitions = s.transitions ∧
      (s.Transition d).id = s.id ∧ (s.Transition d).action = s.action ∧
      ∀ (u : Value) (du : Ptr), mapGet Value.keyEq s.transitions u = some du →
        (s.Transition d).nextState u = s.nextState u) ∧
    (∀ (w w1 : World A E) (p d : Ptr), Transition p d w = some w1 →
      w1.deref p = (w.deref p).map (fun s => s.Transition d) ∧
      w1.gameMap = w.gameMap ∧ w1.env = w.env ∧
      ∀ q : Ptr, q ≠ p →
        w1.deref q = w.deref q ∧ ∀ x, nextState w1 q x = nextState w q x) ∧
    (∀ (w w2 : World A E) (p d : Ptr) (k : Value), TransitionOn p d k w = some w2 →
      w2.deref p = (w.deref p).bind (fun s => s.TransitionOn d k) ∧
      w2.gameMap = w.gameMap ∧ w2.env = w.env ∧
      ∀ q : Ptr, q ≠ p →
        w2.deref q = w.deref q ∧ ∀ x, nextState w2 q x = nextState w q x) := by
  refine ⟨?_, ?_, ?_, ?_, ?_⟩
  · intro s d k hk
    exact ⟨_, TransitionOn_of_hashable s d k hk⟩
  · intro s s' d k h
    have hfix : s'.defaultTransition = s.defaultTransition ∧ s'.id = s.id ∧
        s'.action = s.action := by
      by_cases hk : k.hashable = true
      · rw [TransitionOn_of_hashable s d k hk] at h
        obtain rfl := Option.some.inj h
        exact ⟨rfl, rfl, rfl⟩
      · simp [GameState.TransitionOn, hk] at h
    refine ⟨hfix.1, hfix.2.1, hfix.2.2, ?_⟩
    intro v hv
    obtain ⟨h1, h2, _⟩ := TransitionOn_frame s s' d k v h hv
    exact ⟨h1, h2⟩
  · intro s d
    refine ⟨rfl, rfl, rfl, rfl, ?_⟩
    intro u du hu
    exact (Transition_frame s d du u hu).1
  · intro w w1 p d hT
    obtain ⟨_, _, hg, he⟩ := Transition_world_frame w w1 p d none hT
      (fun h => by
        cases p with
        | none => simp [Transition] at hT
        | some a => exact Option.noConfusion h)
    refine ⟨Transition_world_self w w1 p d hT, hg, he, ?_⟩
    intro q hq
    obtain ⟨h1, h2, _, _⟩ := Transition_world_frame w w1 p d q hT hq
    exact ⟨h1, h2⟩
  · intro w w2 p d k hT
    obtain ⟨_, _, hg, he⟩ := TransitionOn_world_frame w w2 p d none k hT
      (fun h => by
        cases p with
        | none => simp [TransitionOn] at hT
        | some a => exact Option.noConfusion h)
    refine ⟨TransitionOn_world_self w w2 p d k hT, hg, he, ?_⟩
    intro q hq
    obtain ⟨h1, h2, _, _⟩ := TransitionOn_world_frame w w2 p d q k hT hq
    exact ⟨h1, h2⟩

/-- C18 on `freshState`, whose table is empty (key `7` added, the value `1`
and the default observed), on `branchState` (default rewritten, the key `1`
resolved), and on the graph of `TestTransitions` (calls on state 1, state 2
observed). -/
theorem transition_frames_witness :
    (∃ s', freshState.TransitionOn (some 4) (Value.int 7) = some s' ∧
      s'.defaultTransition = freshState.defaultTransition ∧
      s'.nextState (Value.int 1) = freshState.nextState (Value.int 1)) ∧
    ((branchState.Transition (some 4)).transitions = branchState.transitions ∧
      (branchState.Transition (some 4)).nextState (Value.int 1)
        = branchState.nextState (Value.int 1)) ∧
    (∃ w1, Transition (some 0) (some 4) testWorld = some w1 ∧
      w1.gameMap = testWorld.gameMap ∧ w1.deref (some 1) = testWorld.deref (some 1)) ∧
    (∃ w2, TransitionOn (some 0) (some 4) (Value.int 7) testWorld = some w2 ∧
      w2.gameMap = testWorld.gameMap ∧ w2.deref (some 1) = testWorld.deref (some 1)) :=
  have h := @transition_frames Int Unit Unit
  have hOn : freshState.TransitionOn (some 4) (Value.int 7)
      = some { freshState with transitions := [(Value.int 7, some 4)] } := by decide
  have hT : Transition (some 0) (some 4) testWorld
      = some (testWorld.store 0
          { id := 0, action := 1, transitions := [], defaultTransition := some 4 }) := by
    decide
  have hTOn : TransitionOn (some 0) (some 4) (Value.int 7) testWorld
      = some (testWorld.store 0
          { id := 0, action := 1, transitions := [(Value.int 7, some 4)],
            defaultTransition := some 2 }) := by
    decide
  ⟨⟨_, hOn, (h.2.1 freshState _ (some 4) (Value.int 7) hOn).1,
      ((h.2.1 freshState _ (some 4) (Value.int 7) hOn).2.2.2 (Value.int 1) (by decide)).1⟩,
   ⟨(h.2.2.1 branchState (some 4)).2.1,
    (h.2.2.1 branchState (some 4)).2.2.2.2 (Value.int 1) (some 3) (by decide)⟩,
   ⟨_, hT, (h.2.2.2.1 testWorld _ (some 0) (some 4) hT).2.1,
    ((h.2.2.2.1 testWorld _ (some 0) (some 4) hT).2.2.2 (some 1) (by decide)).1⟩,
   ⟨_, hTOn, (h.2.2.2.2 testWorld _ (some 0) (some 4) (Value.int 7) hTOn).2.1,
    ((h.2.2.2.2 testWorld _ (some 0) (some 4) (Value.int 7) hTOn).2.2.2 (some 1)
      (by decide)).1⟩⟩

/-! ## Frames of the value store -/

/-- C19: for `k'` different from `k`, `SetGameValue(k, v)` and
`DeleteGameValue(k)` leave what `GetGameValue(k')` returns; both leave the
heap of states, the identity counter, the registry and the rest of the
world as they are.  `GetGameValue` is a read: it returns a value and a flag
and no new world. -/
theorem store_frames {A E : Type} (w : World A E) (k k' : String) (v : Value)
    (hk : k' ≠ k) :
    GetGameValue k' (SetGameValue k v w) = GetGameValue k' w ∧
    GetGameValue k' (DeleteGameValue k w) = GetGameValue k' w ∧
    ((SetGameValue k v w).heap = w.heap ∧
      (SetGameValue k v w).gameMap.nextStateID = w.gameMap.nextStateID ∧
      (SetGameValue k v w).gameMap.states = w.gameMap.states ∧
      (SetGameValue k v w).env = w.env) ∧
    ((DeleteGameValue k w).heap = w.heap ∧
      (DeleteGameValue k w).gameMap.nextStateID = w.gameMap.nextStateID ∧
      (DeleteGameValue k w).gameMap.states = w.gameMap.states ∧
      (DeleteGameValue k w).env = w.env) ∧
    (∀ (p : Ptr) (x : Value), nextState (SetGameValue k v w) p x = nextState w p x ∧
      nextState (DeleteGameValue k w) p x = nextState w p x) := by
  refine ⟨?_, ?_, ⟨rfl, rfl, rfl, rfl⟩, ⟨rfl, rfl, rfl, rfl⟩, fun p x => ⟨rfl, rfl⟩⟩
  · simp only [GetGameValue, SetGameValue]
    rw [mapGet_mapSet_other strEq strEq_eq _ k k' v hk]
  · simp only [GetGameValue, DeleteGameValue]
    rw [mapGet_mapDelete_other strEq strEq_eq _ k k' hk]

/-- C19 on the world of `TestGetSetGameValues`: writing or deleting
`"number1"` leaves `"total"`. -/
theorem store_frames_witness :
    "total" ≠ "number1" ∧
    GetGameValue "total" (SetGameValue "number1" (Value.int 1) totalWorld)
      = GetGameValue "total" totalWorld ∧
    GetGameValue "total" (DeleteGameValue "number1" totalWorld)
      = GetGameValue "total" totalWorld :=
  have h := store_frames totalWorld "number1" "total" (Value.int 1) (by decide)
  ⟨by decide, h.1, h.2.1⟩

/-! ## Nil destinations -/

theorem mapGet_mem {K V : Type} (eq : K → K → Bool) (m : List (K × V)) (k : K) (d : V)
    (h : mapGet eq m k = some d) : ∃ e ∈ m, e.2 = d := by
  induction m with
  | nil => simp [mapGet] at h
  | cons e rest ih =>
    obtain ⟨k', v'⟩ := e
    by_cases hk : eq k' k = true
    · simp only [mapGet, hk, if_true, Option.some.injEq] at h
      exact ⟨(k', v'), List.mem_cons_self _ _, h⟩
    · simp only [mapGet, hk] at h
      obtain ⟨e, he, hd⟩ := ih h
      exact ⟨e, List.mem_cons_of_mem _ he, hd⟩

theorem nextState_nonNil {A : Type} (s : GameState A) (v : Value) (d : Ptr)
    (htab : ∀ e ∈ s.transitions, e.2 ≠ none) (h : s.nextState v = some (d, none)) :
    d ≠ none := by
  unfold GameState.nextState at h
  split at h
  · split at h
    · rename_i nx hget
      simp only [Option.some.injEq, Prod.mk.injEq, and_true] at h
      obtain ⟨e, he, hd⟩ := mapGet_mem _ _ _ _ hget
      rw [← h, ← hd]
      exact htab e he
    · split at h
      · rename_i hdef
        simp only [Option.some.injEq, Prod.mk.injEq, and_true] at h
        rw [← h]
        exact hdef
      · simp at h
  · exact Option.noConfusion h

theorem nextState_world_nonNil {A E : Type} (w : World A E) (p d : Ptr) (v : Value)
    (htab : tablesNonNil w) (h : nextState w p v = some (d, none)) : d ≠ none := by
  unfold nextState at h
  cases hd : w.deref p with
  | none => simp [hd] at h
  | some s =>
    rw [hd, Option.some_bind] at h
    cases p with
    | none => simp [World.deref] at hd
    | some a =>
      simp only [World.deref] at hd
      exact nextState_nonNil s v d (htab s (List.getElem?_mem hd)) h

theorem RunGame_step_nonNil {A E : Type} (exec : Exec A E) (endState : Ptr)
    (hexec : ∀ a u v u', tablesNonNil u → exec a u = some (v, u') → tablesNonNil u')
    (s : RunState A E (Value × GoError))
    (hw : ∀ u, s.world? = some u → tablesNonNil u) (hc : s.current? ≠ some none)
    (hex : none ∉ s.executed) :
    (RunGame.step exec endState s).current? ≠ some none ∧
    none ∉ (RunGame.step exec endState s).executed := by
  cases s with
  | Panicked => exact ⟨hc, hex⟩
  | Returned r w ex => exact ⟨hc, hex⟩
  | Running p w ex =>
    have hp : p ≠ none := fun h => hc (by rw [h]; rfl)
    have hex2 : none ∉ ex ++ [p] := by
      simp only [List.mem_append, List.mem_singleton, not_or]
      exact ⟨hex, fun h => hp h.symm⟩
    cases hcall : callAction exec w p with
    | none =>
      by_cases hpe : p = endState
      · subst hpe
        simp [RunGame.step, hcall, RunState.current?, RunState.executed]
      · simp [RunGame.step, hpe, hcall, RunState.current?, RunState.executed]
    | some c =>
      obtain ⟨v, w1⟩ := c
      have hw1 : tablesNonNil w1 :=
        callAction_preserves exec tablesNonNil hexec w w1 p v (hw w rfl) hcall
      by_cases hpe : p = endState
      · subst hpe
        simp only [RunGame.step, ne_eq, not_true_eq_false, ↓reduceIte, hcall]
        exact ⟨by simp [RunState.current?], hex2⟩
      · simp only [RunGame.step, ne_eq, hpe, not_false_eq_true, ↓reduceIte, hcall]
        cases hn : nextState w1 p v with
        | none => simp [RunState.current?, RunState.executed]
        | some r =>
          obtain ⟨nx, err⟩ := r
          cases err with
          | none =>
            simp only [ne_eq, not_true_eq_false, ↓reduceIte]
            refine ⟨?_, hex2⟩
            simp only [RunState.current?, ne_eq, Option.some.injEq]
            exact nextState_world_nonNil w1 p nx v hw1 hn
          | some e =>
            simp only [ne_eq, reduceCtorEq, not_false_eq_true, ↓reduceIte]
            exact ⟨by simp [RunState.current?], hex2⟩

theorem RunGameToEnd_step_nonNil {A E : Type} (exec : Exec A E)
    (hexec : ∀ a u v u', tablesNonNil u → exec a u = some (v, u') → tablesNonNil u')
    (s : RunState A E Value)
    (hw : ∀ u, s.world? = some u → tablesNonNil u) (hc : s.current? ≠ some none)
    (hex : none ∉ s.executed) :
    (RunGameToEnd.step exec s).current? ≠ some none ∧
    none ∉ (RunGameToEnd.step exec s).executed := by
  cases s with
  | Panicked => exact ⟨hc, hex⟩
  | Returned r w ex => exact ⟨hc, hex⟩
  | Running p w ex =>
    have hp : p ≠ none := fun h => hc (by rw [h]; rfl)
    have hex2 : none ∉ ex ++ [p] := by
      simp only [List.mem_append, List.mem_singleton, not_or]
      exact ⟨hex, fun h => hp h.symm⟩
    cases hcall : callAction exec w p with
    | none => simp [RunGameToEnd.step, hcall, RunState.current?, RunState.executed]
    | some c =>
      obtain ⟨v, w1⟩ := c
      have hw1 : tablesNonNil w1 :=
        callAction_preserves exec tablesNonNil hexec w w1 p v (hw w rfl) hcall
      simp only [RunGameToEnd.step, hcall]
      cases hn : nextState w1 p v with
      | none => simp [RunState.current?, RunState.executed]
      | some r =>
        obtain ⟨nx, err⟩ := r
        cases err with
        | none =>
          simp only [ne_eq, not_true_eq_false, ↓reduceIte]
          refine ⟨?_, hex2⟩
          simp only [RunState.current?, ne_eq, Option.some.injEq]
          exact nextState_world_nonNil w1 p nx v hw1 hn
        | some e =>
          simp only [ne_eq, reduceCtorEq, not_false_eq_true, ↓reduceIte]
          exact ⟨by simp [RunState.current?], hex2⟩

theorem runs_nonNil {A E : Type} (exec : Exec A E) (startState endState : Ptr)
    (w : World A E)
    (hexec : ∀ a u v u', tablesNonNil u → exec a u = some (v, u') → tablesNonNil u')
    (htab : tablesNonNil w) (hstart : startState ≠ none) (n : Nat) :
    ((RunGame exec startState endState w n).current? ≠ some none ∧
      none ∉ (RunGame exec startState endState w n).executed) ∧
    ((RunGameToEnd exec startState w n).current? ≠ some none ∧
      none ∉ (RunGameToEnd exec startState w n).executed) := by
  induction n with
  | zero =>
    simp only [RunGame, RunGameToEnd, Function.iterate_zero, id_eq, RunState.current?,
      RunState.executed, ne_eq, Option.some.injEq, List.not_mem_nil, not_false_eq_true,
      and_true, and_self]
    exact hstart
  | succ n ih =>
    have hworld := run_preserves exec startState endState w tablesNonNil hexec htab n
    constructor
    · unfold RunGame at ih hworld ⊢
      rw [Function.iterate_succ_apply']
      exact RunGame_step_nonNil exec endState hexec _ hworld.1 ih.1.1 ih.1.2
    · unfold RunGameToEnd at ih hworld ⊢
      rw [Function.iterate_succ_apply']
      exact RunGameToEnd_step_nonNil exec hexec _ hworld.2 ih.2.1 ih.2.2

theorem nilTableGraph_eq : nilTableGraph = some nilTableWorld := by decide

theorem testWorldOn_eq :
    wireConditional Value.int [some 0, some 2, some 3, some 1, some 4] fiveStates
      = some testWorldOn := by decide

/-- C20: in a graph whose tables hold non-nil destinations only, with actions
that keep it so, a resolution that returns no error returns a non-nil state,
and `RunGame` and `RunGameToEnd` started on a non-nil state never have nil
as current state nor among the states whose action they have called.  A nil
default is no default: with no table entry for a hashable value, `nextState`
returns the error.  A nil destination written by `TransitionOn` under a key
is returned by `nextState` with no error; on `nilTableWorld` the run then
reaches the loop head with a nil current state and panics. -/
theorem nil_destinations {A B E : Type} (exec : Exec A E) (startState endState : Ptr)
    (w : World A E) (n : Nat)
    (hexec : ∀ a u v u', tablesNonNil u → exec a u = some (v, u') → tablesNonNil u')
    (htab : tablesNonNil w) (hstart : startState ≠ none) :
    (∀ (s : GameState B) (v : Value) (d : Ptr), (∀ e ∈ s.transitions, e.2 ≠ none) →
      s.nextState v = some (d, none) → d ≠ none) ∧
    (∀ (p d : Ptr) (v : Value), nextState w p v = some (d, none) → d ≠ none) ∧
    ((RunGame exec startState endState w n).current? ≠ some none ∧
      none ∉ (RunGame exec startState endState w n).executed) ∧
    ((RunGameToEnd exec startState w n).current? ≠ some none ∧
      none ∉ (RunGameToEnd exec startState w n).executed) ∧
    (∀ (s : GameState B) (v : Value), v.hashable = true →
      mapGet Value.keyEq s.transitions v = none →
      (s.Transition none).nextState v = some (none, some errNoTransition)) ∧
    (∀ (s : GameState B) (k : Value), k.isKey = true →
      ∃ s', s.TransitionOn none k = some s' ∧ s'.nextState k = some (none, none)) ∧
    (RunGame constExec (some 0) (some 1) nilTableWorld 1
        = .Running none nilTableWorld [some 0] ∧
      RunGame constExec (some 0) (some 1) nilTableWorld 2 = .Panicked) := by
  have hruns := runs_nonNil exec startState endState w hexec htab hstart n
  refine ⟨fun s v d hs h => nextState_nonNil s v d hs h,
    fun p d v h => nextState_world_nonNil w p d v htab h, hruns.1, hruns.2, ?_, ?_,
    by decide, by decide⟩
  · intro s v hv hnot
    rw [nextState_of_hashable _ v hv]
    simp [GameState.Transition, hnot]
  · intro s k hk
    have hh := ((isKey_iff k).1 hk).1
    refine ⟨_, TransitionOn_of_hashable s none k hh, ?_⟩
    rw [nextState_of_hashable _ k hh]
    simp only
    rw [mapGet_mapSet_self Value.keyEq _ k none hk]

/-- C20 on the graph of `TestTransitionsOn`, run from state 1 to state 5. -/
theorem nil_destinations_witness :
    (∀ a u v u', tablesNonNil u → (constExec : Exec Int Unit) a u = some (v, u') →
      tablesNonNil u') ∧
    tablesNonNil testWorldOn ∧ (some 0 : Ptr) ≠ none ∧
    (RunGame constExec (some 0) (some 4) testWorldOn 5).current? ≠ some none ∧
    none ∉ (RunGame constExec (some 0) (some 4) testWorldOn 5).executed ∧
    (RunGame constExec (some 0) (some 4) testWorldOn 5).result? = some (Value.int 5, none) :=
  have hexec : ∀ a u v u', tablesNonNil u → (constExec : Exec Int Unit) a u = some (v, u') →
      tablesNonNil u' := by
    intro a u v u' hu h
    simp only [constExec, Option.some.injEq, Prod.mk.injEq] at h
    exact h.2 ▸ hu
  have htab : tablesNonNil testWorldOn := by
    intro s hs e he
    simp only [testWorldOn, List.mem_cons, List.mem_singleton, List.not_mem_nil,
      or_false] at hs
    rcases hs with rfl | rfl | rfl | rfl | rfl
    all_goals simp only [List.mem_singleton, List.not_mem_nil] at he
    all_goals (rw [he]; decide)
  have h := @nil_destinations Int Unit Unit constExec (some 0) (some 4) testWorldOn 5 hexec
    htab (by decide)
  ⟨hexec, htab, by decide, h.2.2.1.1, h.2.2.1.2, by decide⟩

end Gamestate
